import Mathlib

/-!
Verification of the dependency-graph / critical-path scheduling engine.

The source is a TypeScript module built around a `DependencyGraph` made of two
JavaScript `Map`s: a node map (task id to task record) and an adjacency map
(task id to the list of task ids it depends on).  JavaScript `Map`s preserve
insertion order, so both maps are modelled as ordered association lists.
Numbers are modelled as `Int` (all quantities the algorithms manipulate are
integers), task ids as `Nat`, calendar dates as integer day numbers.

Every definition below is a direct translation of the corresponding source
function; source-level details such as `x.get(k) || 0` (default on a missing
key) and `queue.shift()` / `queue.push(...)` (FIFO order) are preserved.
Recursive set traversals and while loops are written with an explicit fuel
argument that is chosen large enough to never be exhausted (the lemmas about
them establish this under the stated invariants).
-/

/-- Association-list model of a JavaScript Map lookup: value of the first
entry whose key matches. -/
def mfind {A : Type} (m : List (Nat × A)) (k : Nat) : Option A :=
  (m.find? fun p => p.1 == k).map (fun p => p.2)

/-- Association-list model of JavaScript Map.set: if the key is present the
entry is updated in place (keeping its position), otherwise a new entry is
appended at the end. -/
def mset {A : Type} (m : List (Nat × A)) (k : Nat) (v : A) : List (Nat × A) :=
  if (m.find? fun p => p.1 == k).isSome then
    m.map fun p => if p.1 == k then (k, v) else p
  else m ++ [(k, v)]

/-- The keys of an association list, in insertion order (Map.keys). -/
def mkeys {A : Type} (m : List (Nat × A)) : List Nat :=
  m.map (fun p => p.1)

/-- Source interface TaskNode: a task record as stored in the dependency
graph.  `title`, `dueDate`, `earliestStartDate` and `isOnCriticalPath` are
carried along but never read by the scheduling algorithms. -/
structure TaskNode where
  id : Nat
  title : String
  duration : Int
  dueDate : Option Int := none
  dependencies : List Nat := []
  dependentTasks : List Nat := []
  earliestStartDate : Option Int := none
  isOnCriticalPath : Bool := false
deriving Repr, DecidableEq

/-- Source interface DependencyGraph: node map plus adjacency map (task id to
the ids it depends on). -/
structure DependencyGraph where
  nodes : List (Nat × TaskNode)
  adjacencyList : List (Nat × List Nat)
deriving Repr, DecidableEq

/-- The dependency list of a node: `adjacencyList.get(n) || []`. -/
def depsOf (adj : List (Nat × List Nat)) (n : Nat) : List Nat :=
  (mfind adj n).getD []

/-- The edge relation of an adjacency map: `edgeOf adj x y` holds when task
`x` depends on task `y` (y is listed among the predecessors of x). -/
def edgeOf (adj : List (Nat × List Nat)) (x y : Nat) : Prop :=
  y ∈ depsOf adj x

instance (adj : List (Nat × List Nat)) (x y : Nat) : Decidable (edgeOf adj x y) :=
  inferInstanceAs (Decidable (y ∈ depsOf adj x))

/-- A graph is acyclic when no task transitively depends on itself. -/
def Acyclic (adj : List (Nat × List Nat)) : Prop :=
  ∀ c, ¬ Relation.TransGen (edgeOf adj) c c

/-- Well-formedness of a DependencyGraph, as guaranteed by the source's
buildDependencyGraph reading the database: node keys are unique, the
adjacency map has exactly the node keys (in the same order), and every
dependency list is duplicate-free (unique index on (taskId, dependsOnId))
and only references existing tasks (foreign keys). -/
def WellFormed (g : DependencyGraph) : Prop :=
  (mkeys g.nodes).Nodup ∧
  mkeys g.adjacencyList = mkeys g.nodes ∧
  ∀ p ∈ g.adjacencyList, p.2.Nodup ∧ ∀ d ∈ p.2, d ∈ mkeys g.nodes

instance (g : DependencyGraph) : Decidable (WellFormed g) :=
  inferInstanceAs (Decidable (_ ∧ _ ∧ ∀ p ∈ g.adjacencyList, _ ∧ ∀ d ∈ p.2, d ∈ _))

/-- The temporary adjacency map of hasCircularDependency: a clone of the
graph's adjacency map with `newDependencyId` appended to the dependency list
of `newTaskId`. -/
def tempAdjOf (g : DependencyGraph) (newTaskId newDependencyId : Nat) :
    List (Nat × List Nat) :=
  mset g.adjacencyList newTaskId (depsOf g.adjacencyList newTaskId ++ [newDependencyId])

mutual

/-- One depth-first visit of the source's dfs closure.  `stack` is the
recursion stack (the JavaScript code deletes the node from the shared set on
exit, so that set always equals the chain of active calls), `visited`
persists across calls.  Returns the cycle flag and the updated visited set.
The fuel only bounds the nesting depth; each non-trivial nested call has a
strictly larger visited set, so the fuel chosen by hasCircularDependency is
never exhausted. -/
def dfs (adj : List (Nat × List Nat)) (fuel : Nat) (nodeId : Nat)
    (stack visited : List Nat) : Bool × List Nat :=
  match fuel with
  | 0 => (false, visited)
  | fuel' + 1 =>
    if nodeId ∈ stack then (true, visited)
    else if nodeId ∈ visited then (false, visited)
    else dfsList adj fuel' (depsOf adj nodeId) (nodeId :: stack) (nodeId :: visited)
termination_by (fuel, 0)

/-- The for-loop of dfs over a dependency list, threading the visited set
and stopping at the first detected cycle. -/
def dfsList (adj : List (Nat × List Nat)) (fuel : Nat) (deps : List Nat)
    (stack visited : List Nat) : Bool × List Nat :=
  match deps with
  | [] => (false, visited)
  | d :: ds =>
    match dfs adj fuel d stack visited with
    | (true, v) => (true, v)
    | (false, v) => dfsList adj fuel ds stack v
termination_by (fuel, deps.length + 1)

end

/-- The top-level loop of hasCircularDependency: start a DFS from every not
yet visited node of the node map, in insertion order, returning true as soon
as one traversal finds a cycle. -/
def dfsRoots (adj : List (Nat × List Nat)) (fuel : Nat) :
    List Nat → List Nat → Bool
  | [], _ => false
  | r :: rs, visited =>
    if r ∈ visited then dfsRoots adj fuel rs visited
    else
      match dfs adj fuel r [] visited with
      | (true, _) => true
      | (false, v) => dfsRoots adj fuel rs v

/-- All ids occurring in an adjacency map: every key followed by its
dependency list. -/
def adjIds (adj : List (Nat × List Nat)) : List Nat :=
  adj.foldr (fun p acc => p.1 :: (p.2 ++ acc)) []

/-- Total number of key and id occurrences in an adjacency map; used to size
the DFS fuel. -/
def adjSize (adj : List (Nat × List Nat)) : Nat :=
  (adjIds adj).length

/-- Source hasCircularDependency: clone the adjacency map, append the
candidate edge `newTaskId → newDependencyId`, then run a DFS with a
recursion-stack marker set from every node of the graph. -/
def hasCircularDependency (graph : DependencyGraph)
    (newTaskId newDependencyId : Nat) : Bool :=
  let tempAdjacencyList := tempAdjOf graph newTaskId newDependencyId
  dfsRoots tempAdjacencyList
    (graph.nodes.length + adjSize tempAdjacencyList + 1) (mkeys graph.nodes) []

/-- The decrement pass of the new topologicalSort: on dequeuing `current`,
walk the adjacency map in order and decrement the in-degree of every task
whose dependency list contains `current`, collecting (in the same order) the
tasks whose in-degree reaches exactly zero. -/
def decrementPass (current : Nat) :
    List (Nat × List Nat) → List (Nat × Int) → List (Nat × Int) × List Nat
  | [], inDeg => (inDeg, [])
  | (taskId, deps) :: rest, inDeg =>
    if current ∈ deps then
      let newInDegree := (mfind inDeg taskId).getD 0 - 1
      let next := decrementPass current rest (mset inDeg taskId newInDegree)
      (next.1, if newInDegree = 0 then taskId :: next.2 else next.2)
    else decrementPass current rest inDeg

/-- The while loop of the new topologicalSort (Kahn's algorithm): dequeue
from the front, append the node to the result, and enqueue every task whose
remaining in-degree hits zero.  Fuel bounds the number of iterations; under
the well-formedness invariants each node is enqueued at most once, so the
fuel chosen by topologicalSort is never exhausted. -/
def kahnLoop (adj : List (Nat × List Nat)) :
    Nat → List Nat → List (Nat × Int) → List Nat → List Nat
  | 0, _, _, result => result
  | _ + 1, [], _, result => result
  | fuel + 1, current :: queue, inDeg, result =>
    let next := decrementPass current adj inDeg
    kahnLoop adj fuel (queue ++ next.2) next.1 (result ++ [current])

/-- In-degree initialization of the new topologicalSort: every node key is
set to 0, then each task's in-degree is set to the number of its
prerequisites (the length of its dependency list). -/
def buildInDegree (g : DependencyGraph) : List (Nat × Int) :=
  let inDeg0 := (mkeys g.nodes).foldl (fun m k => mset m k 0) []
  g.adjacencyList.foldl (fun m p => mset m p.1 (p.2.length : Int)) inDeg0

/-- Source topologicalSort (new variant): Kahn's algorithm where the
in-degree of a task is the number of tasks it depends on; the queue starts
with all zero-in-degree entries in map order. -/
def topologicalSort (graph : DependencyGraph) : List Nat :=
  let inDegree := buildInDegree graph
  let queue := (inDegree.filter fun p => p.2 == 0).map (fun p => p.1)
  kahnLoop graph.adjacencyList
    (graph.nodes.length + graph.adjacencyList.length + 1) queue inDegree []

/-- In-degree initialization of the old topologicalSort variant: every node
key is set to 0, then walking the adjacency map increments the counter of
every id that appears in a dependency list (counting how many tasks depend
on it). -/
def oldBuildInDegree (g : DependencyGraph) : List (Nat × Int) :=
  let inDeg0 := (mkeys g.nodes).foldl (fun m k => mset m k 0) []
  g.adjacencyList.foldl
    (fun m p => p.2.foldl (fun m' depId => mset m' depId ((mfind m' depId).getD 0 + 1)) m)
    inDeg0

/-- The while loop of the old topologicalSort variant: on dequeuing a node,
decrement the counters of the node's own dependencies. -/
def oldKahnLoop (adj : List (Nat × List Nat)) :
    Nat → List Nat → List (Nat × Int) → List Nat → List Nat
  | 0, _, _, result => result
  | _ + 1, [], _, result => result
  | fuel + 1, current :: queue, inDeg, result =>
    let step := (depsOf adj current).foldl
      (fun s depId =>
        let newInDegree := (mfind s.1 depId).getD 0 - 1
        (mset s.1 depId newInDegree, if newInDegree = 0 then s.2 ++ [depId] else s.2))
      (inDeg, ([] : List Nat))
    oldKahnLoop adj fuel (queue ++ step.2) step.1 (result ++ [current])

/-- The old topologicalSort variant found earlier in the repository: same
queue discipline, but in-degrees count dependents instead of prerequisites
and the decrement on dequeue follows the node's own dependency edges. -/
def oldTopologicalSort (graph : DependencyGraph) : List Nat :=
  let inDegree := oldBuildInDegree graph
  let queue := (inDegree.filter fun p => p.2 == 0).map (fun p => p.1)
  oldKahnLoop graph.adjacencyList
    (graph.nodes.length + graph.adjacencyList.length + 1) queue inDegree []

/-- Duration of a task: `graph.nodes.get(nodeId)!.duration`; the non-null
assertion is sound on well-formed graphs, where every sorted node is a key
of the node map, so the default is never taken. -/
def nodeDuration (g : DependencyGraph) (nodeId : Nat) : Int :=
  ((mfind g.nodes nodeId).map TaskNode.duration).getD 0

/-- The forward pass of calculateCriticalPath: walk the sorted nodes; the
earliest start of a node is the maximum of its initial value (0) and the
earliest finish of each of its dependencies (`earliestFinish.get(depId) || 0`);
the earliest finish adds the node's duration. -/
def forwardPass (g : DependencyGraph) :
    List Nat → List (Nat × Int) → List (Nat × Int) → List (Nat × Int) × List (Nat × Int)
  | [], earliestTimes, earliestFinish => (earliestTimes, earliestFinish)
  | nodeId :: rest, earliestTimes, earliestFinish =>
    let earliestStart := (depsOf g.adjacencyList nodeId).foldl
      (fun acc depId => max acc ((mfind earliestFinish depId).getD 0))
      ((mfind earliestTimes nodeId).getD 0)
    forwardPass g rest (mset earliestTimes nodeId earliestStart)
      (mset earliestFinish nodeId (earliestStart + nodeDuration g nodeId))

/-- Maximum of a list of integers (`Math.max(...values)`); the empty case
(-Infinity in JavaScript) is never observable: it occurs only when the
sorted node list is empty, and then no later step reads the value. -/
def maxIntList : List Int → Int
  | [] => 0
  | x :: xs => xs.foldl max x

/-- Successor scan of the backward pass: the tasks whose dependency list
contains `nodeId`, in adjacency-map order. -/
def successorsOf (adj : List (Nat × List Nat)) (nodeId : Nat) : List Nat :=
  (adj.filter fun p => decide (nodeId ∈ p.2)).map (fun p => p.1)

/-- The minimum over the successors' latest starts, skipping successors with
no latestTimes entry; `none` models the `Infinity` sentinel surviving the
whole loop. -/
def minDefined (latestTimes : List (Nat × Int)) (succs : List Nat) : Option Int :=
  succs.foldl
    (fun acc s =>
      match mfind latestTimes s with
      | none => acc
      | some v =>
        match acc with
        | none => some v
        | some m => some (min m v))
    none

/-- The backward pass of calculateCriticalPath: walk the sorted nodes in
reverse; a node with successors gets its latest finish from the minimum
latest start of its successors (if any is defined), everyone else keeps the
initialized project duration; latest start subtracts the duration. -/
def backwardPass (g : DependencyGraph) :
    List Nat → List (Nat × Int) → List (Nat × Int) → List (Nat × Int) × List (Nat × Int)
  | [], latestTimes, latestFinish => (latestTimes, latestFinish)
  | nodeId :: rest, latestTimes, latestFinish =>
    let succs := successorsOf g.adjacencyList nodeId
    let latestFinish' :=
      if succs.length > 0 then
        match minDefined latestTimes succs with
        | some v => mset latestFinish nodeId v
        | none => latestFinish
      else latestFinish
    let latestStart := (mfind latestFinish' nodeId).getD 0 - nodeDuration g nodeId
    backwardPass g rest (mset latestTimes nodeId latestStart) latestFinish'

/-- The critical-task membership test used by the source
(`Math.abs(latest - earliest) < 0.001`), written over the exact rationals
the integer inputs denote. -/
def critTest (earliest latest : Int) : Bool :=
  decide (|(latest : ℚ) - (earliest : ℚ)| < 1 / 1000)

/-- Result record of calculateCriticalPath. -/
structure CPMResult where
  criticalPath : List Nat
  earliestTimes : List (Nat × Int)
  latestTimes : List (Nat × Int)
  criticalPathSet : List Nat
deriving Repr, DecidableEq

/-- Project completion time: `Math.max(...earliestFinish.values())`. -/
def projectDurationOf (earliestFinish : List (Nat × Int)) : Int :=
  maxIntList (earliestFinish.map (fun p => p.2))

/-- Source calculateCriticalPath (new version): topological sort, forward
pass over it (earliest times initialized to 0 for every node), project
duration as the maximum earliest finish, backward pass over the reversed
order (latest finish initialized to the project duration for every node),
then the critical set as the nodes whose slack passes the tolerance test.
Note the function never compares the sorted node count against the node map
size: on a cyclic graph it silently computes a schedule from the incomplete
order. -/
def calculateCriticalPath (graph : DependencyGraph) : CPMResult :=
  let sortedNodes := topologicalSort graph
  let earliestTimes0 := (mkeys graph.nodes).foldl (fun m k => mset m k 0) []
  let fwd := forwardPass graph sortedNodes earliestTimes0 []
  let projectDuration := projectDurationOf fwd.2
  let latestFinish0 := (mkeys graph.nodes).foldl (fun m k => mset m k projectDuration) []
  let bwd := backwardPass graph sortedNodes.reverse [] latestFinish0
  let critical := (mkeys graph.nodes).filter fun nodeId =>
    critTest ((mfind fwd.1 nodeId).getD 0) ((mfind bwd.1 nodeId).getD 0)
  { criticalPath := critical
    earliestTimes := fwd.1
    latestTimes := bwd.1
    criticalPathSet := critical }

/-- totalDuration of getCriticalPathInfo: map over the earliestTimes values
with a positional index into the node-key array, adding that node's
duration, and take the maximum. -/
def totalDurationOf (graph : DependencyGraph) : Int :=
  let r := calculateCriticalPath graph
  maxIntList (List.zipWith (fun p k => p.2 + nodeDuration graph k)
    r.earliestTimes (mkeys graph.nodes))

/-- A Todo row of the database (the fields the scheduling engine touches). -/
structure TodoRecord where
  id : Nat
  title : String
  duration : Int
  dueDate : Option Int := none
  earliestStartDate : Option Int := none
  isOnCriticalPath : Bool := false
deriving Repr, DecidableEq

/-- Database snapshot: Todo rows plus TaskDependency rows
(taskId, dependsOnId). -/
structure DB where
  todos : List TodoRecord
  deps : List (Nat × Nat)
deriving Repr, DecidableEq

/-- Source buildDependencyGraph: one TaskNode per Todo row, with its
predecessor list (its TaskDependency rows) and dependent list, the adjacency
entry being the predecessor list. -/
def buildDependencyGraph (db : DB) : DependencyGraph :=
  db.todos.foldl
    (fun g todo =>
      let dependencies := (db.deps.filter fun e => e.1 == todo.id).map (fun e => e.2)
      let dependentTasks := (db.deps.filter fun e => e.2 == todo.id).map (fun e => e.1)
      { nodes := mset g.nodes todo.id
          { id := todo.id, title := todo.title, duration := todo.duration
            dueDate := todo.dueDate, dependencies := dependencies
            dependentTasks := dependentTasks
            earliestStartDate := todo.earliestStartDate
            isOnCriticalPath := todo.isOnCriticalPath }
        adjacencyList := mset g.adjacencyList todo.id dependencies })
    { nodes := [], adjacencyList := [] }

/-- The values updateTaskScheduling writes for each task, in node-map order:
earliestStartDate = reference day + earliest start offset, and the critical
flag from criticalPathSet membership. -/
def schedUpdates (graph : DependencyGraph) (referenceDay : Int) :
    List (Nat × Int × Bool) :=
  let r := calculateCriticalPath graph
  (mkeys graph.nodes).map fun taskId =>
    (taskId, referenceDay + (mfind r.earliestTimes taskId).getD 0,
      decide (taskId ∈ r.criticalPathSet))

/-- The per-row write of updateTaskScheduling's transaction: a todo whose id
has a computed update receives the new earliestStartDate and critical flag;
any other row is left as it is. -/
def applySched (updates : List (Nat × Int × Bool)) (todo : TodoRecord) : TodoRecord :=
  match mfind (updates.map fun u => (u.1, u.2)) todo.id with
  | some (d, c) => { todo with earliestStartDate := some d, isOnCriticalPath := c }
  | none => todo

/-- Source updateTaskScheduling: rebuild the graph, run the CPM, and write
every task's derived fields in one transaction.  `referenceDay` is the
current calendar day truncated to midnight. -/
def updateTaskScheduling (db : DB) (referenceDay : Int) : DB :=
  let graph := buildDependencyGraph db
  let updates := schedUpdates graph referenceDay
  { db with todos := db.todos.map (applySched updates) }

/-- Source addDependency: reject a self-dependency, then a duplicate edge
(unique-index lookup), then run the cycle check on the current graph; only
if all pass is the edge row created and a full reschedule run.  A thrown
error (modelled by `Except.error`) aborts before any write, so the database
is unchanged in every rejection case. -/
def addDependency (db : DB) (referenceDay : Int) (taskId dependsOnId : Nat) :
    Except String DB :=
  if taskId = dependsOnId then
    Except.error "A task cannot depend on itself"
  else if (db.deps.find? fun e => e.1 == taskId && e.2 == dependsOnId).isSome then
    Except.error "This dependency already exists"
  else
    let graph := buildDependencyGraph db
    if hasCircularDependency graph taskId dependsOnId then
      Except.error "Adding this dependency would create a circular dependency"
    else
      Except.ok (updateTaskScheduling { db with deps := db.deps ++ [(taskId, dependsOnId)] } referenceDay)

/-! ### Association-list map lemmas -/

theorem mfind_cons {A : Type} (a : Nat × A) (m : List (Nat × A)) (k : Nat) :
    mfind (a :: m) k = if a.1 = k then some a.2 else mfind m k := by
  by_cases h : a.1 = k
  · simp [mfind, List.find?_cons_of_pos, h]
  · simp [mfind, List.find?_cons_of_neg, h]

theorem mfind_append {A : Type} (m m' : List (Nat × A)) (k : Nat) :
    mfind (m ++ m') k = (mfind m k).or (mfind m' k) := by
  simp only [mfind, List.find?_append]
  cases List.find? (fun p => p.1 == k) m <;> simp

theorem mkeys_cons {A : Type} (a : Nat × A) (m : List (Nat × A)) :
    mkeys (a :: m) = a.1 :: mkeys m := rfl

theorem mfind_isSome {A : Type} (m : List (Nat × A)) (k : Nat) :
    (mfind m k).isSome ↔ k ∈ mkeys m := by
  induction m with
  | nil => simp [mfind, mkeys]
  | cons a m ih =>
    rw [mfind_cons, mkeys_cons]
    by_cases h : a.1 = k
    · simp [h]
    · rw [if_neg h, ih]
      simp only [List.mem_cons]
      constructor
      · exact Or.inr
      · rintro (h2 | hk)
        · exact absurd h2.symm h
        · exact hk

theorem mfind_eq_none {A : Type} (m : List (Nat × A)) (k : Nat) :
    mfind m k = none ↔ k ∉ mkeys m := by
  rw [← mfind_isSome, Option.not_isSome_iff_eq_none]

theorem mem_mkeys {A : Type} (m : List (Nat × A)) (k : Nat) :
    k ∈ mkeys m ↔ ∃ v, (k, v) ∈ m := by
  simp only [mkeys, List.mem_map]
  constructor
  · rintro ⟨p, hp, rfl⟩
    exact ⟨p.2, by simpa using hp⟩
  · rintro ⟨v, hv⟩
    exact ⟨(k, v), hv, rfl⟩

theorem mfind_eq_some_mem {A : Type} {m : List (Nat × A)} {k : Nat} {v : A}
    (h : mfind m k = some v) : (k, v) ∈ m := by
  simp only [mfind, Option.map_eq_some'] at h
  obtain ⟨p, hp, hv⟩ := h
  have hk := List.find?_some hp
  have hmem := List.mem_of_find?_eq_some hp
  simp only [beq_iff_eq] at hk
  obtain ⟨p1, p2⟩ := p
  simp only at hk hv
  subst hk; subst hv; exact hmem

theorem mset_eq_append {A : Type} {m : List (Nat × A)} {k : Nat} (v : A)
    (h : k ∉ mkeys m) : mset m k v = m ++ [(k, v)] := by
  have : mfind m k = none := (mfind_eq_none m k).2 h
  simp only [mfind] at this
  simp [mset, Option.map_eq_none'.1 this]

theorem mset_eq_map {A : Type} {m : List (Nat × A)} {k : Nat} (v : A)
    (h : k ∈ mkeys m) : mset m k v = m.map fun p => if p.1 == k then (k, v) else p := by
  have h2 : (mfind m k).isSome := (mfind_isSome m k).2 h
  simp only [mfind, Option.isSome_map'] at h2
  simp [mset, h2]

theorem mfind_map_update {A : Type} (m : List (Nat × A)) (k k' : Nat) (v : A) :
    mfind (m.map fun p => if p.1 == k then (k, v) else p) k' =
      if k' = k then (mfind m k).map (fun _ => v) else mfind m k' := by
  simp only [beq_iff_eq]
  induction m with
  | nil => by_cases h : k' = k <;> simp [mfind, h]
  | cons a m ih =>
    simp only [List.map_cons]
    by_cases ha : a.1 = k
    · by_cases hk : k' = k
      · subst hk; simp [mfind_cons, ha]
      · have hk2 : ¬ k = k' := fun h => hk h.symm
        simp [mfind_cons, ha, hk, hk2] at ih ⊢
        exact ih
    · by_cases hk : k' = k
      · subst hk
        simp [mfind_cons, ha] at ih ⊢
        exact ih
      · by_cases hak : a.1 = k'
        · simp [mfind_cons, ha, hk, hak]
        · simp [mfind_cons, ha, hk, hak] at ih ⊢
          exact ih

theorem mfind_mset {A : Type} (m : List (Nat × A)) (k : Nat) (v : A) (k' : Nat) :
    mfind (mset m k v) k' = if k' = k then some v else mfind m k' := by
  by_cases hmem : k ∈ mkeys m
  · rw [mset_eq_map v hmem, mfind_map_update]
    by_cases hk : k' = k
    · subst hk
      have h2 : (mfind m k').isSome := (mfind_isSome m k').2 hmem
      obtain ⟨w, hw⟩ := Option.isSome_iff_exists.1 h2
      simp [hw]
    · simp [hk]
  · rw [mset_eq_append v hmem, mfind_append]
    by_cases hk : k' = k
    · subst hk
      rw [(mfind_eq_none m k').2 hmem]
      simp [mfind_cons]
    · have hk2 : ¬ (k = k') := fun h => hk h.symm
      simp only [mfind_cons, hk, hk2, if_neg, if_false]
      simp only [mfind, List.find?_nil, Option.map_none']
      cases (List.find? (fun p => p.1 == k') m).map (fun p => p.2) <;> simp [hk]

theorem mfind_mset_self {A : Type} (m : List (Nat × A)) (k : Nat) (v : A) :
    mfind (mset m k v) k = some v := by
  simp [mfind_mset]

theorem mfind_mset_ne {A : Type} (m : List (Nat × A)) (k : Nat) (v : A) {k' : Nat}
    (h : k' ≠ k) : mfind (mset m k v) k' = mfind m k' := by
  simp [mfind_mset, h]

theorem mkeys_append {A : Type} (m m' : List (Nat × A)) :
    mkeys (m ++ m') = mkeys m ++ mkeys m' := by
  simp [mkeys]

theorem mkeys_mset_mem {A : Type} {m : List (Nat × A)} {k : Nat} (v : A)
    (h : k ∈ mkeys m) : mkeys (mset m k v) = mkeys m := by
  rw [mset_eq_map v h]
  simp only [mkeys, List.map_map]
  apply List.map_congr_left
  intro p _
  by_cases hp : p.1 = k <;> simp [hp]

theorem mkeys_mset_not_mem {A : Type} {m : List (Nat × A)} {k : Nat} (v : A)
    (h : k ∉ mkeys m) : mkeys (mset m k v) = mkeys m ++ [k] := by
  rw [mset_eq_append v h, mkeys_append]
  rfl

theorem mfind_of_mem_nodup {A : Type} {m : List (Nat × A)} (hnd : (mkeys m).Nodup)
    {k : Nat} {v : A} (hmem : (k, v) ∈ m) : mfind m k = some v := by
  induction m with
  | nil => cases hmem
  | cons a m ih =>
    have hnd' := hnd
    rw [mkeys_cons, List.nodup_cons] at hnd'
    rcases List.mem_cons.1 hmem with h | h
    · subst h; simp [mfind_cons]
    · have hk : k ∈ mkeys m := (mem_mkeys m k).2 ⟨v, h⟩
      have hne : a.1 ≠ k := fun he => hnd'.1 (he ▸ hk)
      rw [mfind_cons, if_neg hne]
      exact ih hnd'.2 h

theorem assoc_eq_map {A : Type} (d : A) (m : List (Nat × A)) (hnd : (mkeys m).Nodup) :
    m = (mkeys m).map fun k => (k, (mfind m k).getD d) := by
  induction m with
  | nil => rfl
  | cons a m ih =>
    obtain ⟨k0, v0⟩ := a
    have hnd' := hnd
    rw [mkeys_cons, List.nodup_cons] at hnd'
    rw [mkeys_cons, List.map_cons]
    refine List.cons_eq_cons.mpr ⟨by simp [mfind_cons], ?_⟩
    conv_lhs => rw [ih hnd'.2]
    apply List.map_congr_left
    intro k hk
    have hne : ¬ ((k0, v0) : Nat × A).1 = k := by
      intro he
      simp only at he
      exact hnd'.1 (he ▸ hk)
    rw [mfind_cons, if_neg hne]

theorem foldl_mset_const {A : Type} (c : A) (keys : List Nat) (m0 : List (Nat × A))
    (hd : ∀ k ∈ keys, k ∉ mkeys m0) (hnd : keys.Nodup) :
    keys.foldl (fun m k => mset m k c) m0 = m0 ++ keys.map fun k => (k, c) := by
  induction keys generalizing m0 with
  | nil => simp
  | cons k ks ih =>
    simp only [List.foldl_cons, List.map_cons]
    rw [mset_eq_append c (hd k (by simp))]
    rw [ih (m0 ++ [(k, c)])]
    · simp
    · intro k' hk'
      rw [mkeys_append]
      simp only [List.mem_append, not_or]
      refine ⟨hd k' (by simp [hk']), ?_⟩
      have : k' ≠ k := by
        rintro rfl
        exact (List.nodup_cons.1 hnd).1 hk'
      simp [mkeys, this]
    · exact (List.nodup_cons.1 hnd).2

/-! ### Concrete graphs used by counterexamples and witnesses -/

/-- A task record with the given id and duration. -/
def exTask (i : Nat) (d : Int) : TaskNode :=
  { id := i, title := "task", duration := d }

/-- Spec Scenario A: task 1 (duration 2, no predecessors), task 2 (duration 3,
depends on 1), task 3 (duration 1, depends on 1). -/
def exGraphA : DependencyGraph :=
  { nodes := [(1, exTask 1 2), (2, exTask 2 3), (3, exTask 3 1)]
    adjacencyList := [(1, []), (2, [1]), (3, [1])] }

/-- Two-task chain: task 1 depends on task 2. -/
def exGraphChain : DependencyGraph :=
  { nodes := [(1, exTask 1 1), (2, exTask 2 1)]
    adjacencyList := [(1, [2]), (2, [])] }

/-- Two-task cycle: each task depends on the other. -/
def exGraphCyc : DependencyGraph :=
  { nodes := [(1, exTask 1 1), (2, exTask 2 1)]
    adjacencyList := [(1, [2]), (2, [1])] }

/-- Single isolated task, used by the C1 counterexample. -/
def exGraphSingle : DependencyGraph :=
  { nodes := [(1, exTask 1 1)], adjacencyList := [(1, [])] }

/-- Spec Scenario B database: 1 depends on 2, 2 depends on 3. -/
def exDBB : DB :=
  { todos := [{ id := 1, title := "A", duration := 1 },
              { id := 2, title := "B", duration := 1 },
              { id := 3, title := "C", duration := 1 }]
    deps := [(1, 2), (2, 3)] }

/-- An edge-ranking certificate for acyclicity: if some rank function strictly
drops along every adjacency entry, no node can transitively depend on
itself. -/
theorem acyclic_of_rank (adj : List (Nat × List Nat)) (rank : Nat → Nat)
    (h : ∀ p ∈ adj, ∀ y ∈ p.2, rank y < rank p.1) : Acyclic adj := by
  have hedge : ∀ x y, edgeOf adj x y → rank y < rank x := by
    intro x y hxy
    unfold edgeOf depsOf at hxy
    rcases hfind : mfind adj x with _ | deps
    · rw [hfind] at hxy; cases hxy
    · rw [hfind] at hxy
      exact h (x, deps) (mfind_eq_some_mem hfind) y hxy
  intro c hc
  have hlt : ∀ x y, Relation.TransGen (edgeOf adj) x y → rank y < rank x := by
    intro x y hxy
    induction hxy with
    | single h1 => exact hedge _ _ h1
    | tail _ h1 ih => exact lt_trans (hedge _ _ h1) ih
  exact lt_irrefl _ (hlt c c hc)

/-! ### C7: the critical-membership test is exact integer equality -/

theorem critTest_iff (earliest latest : Int) :
    critTest earliest latest = true ↔ latest = earliest := by
  unfold critTest
  rw [decide_eq_true_iff]
  constructor
  · intro h
    by_contra hne
    have h1 : (1 : ℤ) ≤ |latest - earliest| := Int.one_le_abs (sub_ne_zero.mpr hne)
    have h2 : (1 : ℚ) ≤ |(latest : ℚ) - (earliest : ℚ)| := by
      exact_mod_cast h1
    linarith
  · intro h
    subst h
    norm_num

/-- Membership in the computed critical set (and critical path list, which
is built by the same filter): a node is admitted exactly when it is a node
of the graph and its latest start equals its earliest start, as integers. -/
theorem mem_criticalPath_iff (g : DependencyGraph) (k : Nat) :
    k ∈ (calculateCriticalPath g).criticalPathSet ↔
      k ∈ mkeys g.nodes ∧
        (mfind (calculateCriticalPath g).latestTimes k).getD 0 -
          (mfind (calculateCriticalPath g).earliestTimes k).getD 0 = 0 := by
  show k ∈ (mkeys g.nodes).filter _ ↔ _
  rw [List.mem_filter, critTest_iff, sub_eq_zero]
  exact Iff.rfl

/-- The criticalPath list and the criticalPathSet are produced by one and
the same filter. -/
theorem criticalPath_eq_set (g : DependencyGraph) :
    (calculateCriticalPath g).criticalPath = (calculateCriticalPath g).criticalPathSet := rfl

/-- C7: the critical set computed by calculateCriticalPath admits exactly
the nodes whose latest start minus earliest start is exactly zero, under
exact integer equality; the 0.001 floating-point tolerance in the source
test never changes the outcome on integer durations. -/
theorem criticalSet_exact (g : DependencyGraph)
    (_hdur : ∀ p ∈ g.nodes, 1 ≤ p.2.duration) (k : Nat) :
    (k ∈ (calculateCriticalPath g).criticalPathSet ↔
      k ∈ mkeys g.nodes ∧
        (mfind (calculateCriticalPath g).latestTimes k).getD 0 -
          (mfind (calculateCriticalPath g).earliestTimes k).getD 0 = 0) ∧
    (calculateCriticalPath g).criticalPath = (calculateCriticalPath g).criticalPathSet :=
  ⟨mem_criticalPath_iff g k, criticalPath_eq_set g⟩

/-- Witness for C7 at Scenario A, node 3 (off the critical path). -/
theorem criticalSet_exact_witness :
    (∀ p ∈ exGraphA.nodes, 1 ≤ p.2.duration) ∧
      ((3 ∈ (calculateCriticalPath exGraphA).criticalPathSet ↔
        3 ∈ mkeys exGraphA.nodes ∧
          (mfind (calculateCriticalPath exGraphA).latestTimes 3).getD 0 -
            (mfind (calculateCriticalPath exGraphA).earliestTimes 3).getD 0 = 0) ∧
       (calculateCriticalPath exGraphA).criticalPath =
         (calculateCriticalPath exGraphA).criticalPathSet) :=
  ⟨by decide, criticalSet_exact exGraphA (by decide) 3⟩

/-! ### C8: a cyclic graph slips through calculateCriticalPath silently -/

/-- C8 evaluation: on the two-task cycle the topological sort emits no node
at all (fewer than the two the graph contains), yet calculateCriticalPath
does not abort: it returns a complete schedule computed from the empty
order, with both earliest starts 0, an empty latestTimes map, and both
tasks reported as critical.  The source has no check comparing the sorted
node count with the node count, so no AlgorithmInvariantViolation is ever
raised. -/
theorem calculateCriticalPath_on_cycle :
    topologicalSort exGraphCyc = [] ∧
    (mkeys exGraphCyc.nodes).length = 2 ∧
    (¬ Acyclic exGraphCyc.adjacencyList) ∧
    (calculateCriticalPath exGraphCyc).earliestTimes = [(1, 0), (2, 0)] ∧
    (calculateCriticalPath exGraphCyc).latestTimes = [] ∧
    1 ∈ (calculateCriticalPath exGraphCyc).criticalPathSet ∧
    2 ∈ (calculateCriticalPath exGraphCyc).criticalPathSet := by
  refine ⟨by decide, by decide, ?_, rfl, rfl, ?_, ?_⟩
  · intro hacyc
    have h12 : edgeOf exGraphCyc.adjacencyList 1 2 := by decide
    have h21 : edgeOf exGraphCyc.adjacencyList 2 1 := by decide
    exact hacyc 1 (Relation.TransGen.head h12 (Relation.TransGen.single h21))
  · exact (mem_criticalPath_iff exGraphCyc 1).mpr ⟨by decide, by decide⟩
  · exact (mem_criticalPath_iff exGraphCyc 2).mpr ⟨by decide, by decide⟩

/-! ### DFS correctness -/

theorem key_mem_adjIds {adj : List (Nat × List Nat)} {k : Nat}
    (h : k ∈ mkeys adj) : k ∈ adjIds adj := by
  induction adj with
  | nil => cases h
  | cons p rest ih =>
    rw [mkeys_cons] at h
    rcases List.mem_cons.1 h with h | h
    · subst h; simp [adjIds]
    · simp only [adjIds, List.foldr_cons, List.mem_cons, List.mem_append]
      exact Or.inr (Or.inr (ih h))

theorem val_mem_adjIds {adj : List (Nat × List Nat)} {p : Nat × List Nat}
    (hp : p ∈ adj) {y : Nat} (hy : y ∈ p.2) : y ∈ adjIds adj := by
  induction adj with
  | nil => cases hp
  | cons q rest ih =>
    simp only [adjIds, List.foldr_cons, List.mem_cons, List.mem_append]
    rcases List.mem_cons.1 hp with h | h
    · subst h; exact Or.inr (Or.inl hy)
    · exact Or.inr (Or.inr (ih h))

theorem edge_target_mem_adjIds {adj : List (Nat × List Nat)} {x y : Nat}
    (h : edgeOf adj x y) : y ∈ adjIds adj := by
  unfold edgeOf depsOf at h
  rcases hfind : mfind adj x with _ | deps
  · rw [hfind] at h; cases h
  · rw [hfind] at h
    exact val_mem_adjIds (mfind_eq_some_mem hfind) h

theorem edge_source_mem_mkeys {adj : List (Nat × List Nat)} {x y : Nat}
    (h : edgeOf adj x y) : x ∈ mkeys adj := by
  unfold edgeOf depsOf at h
  rcases hfind : mfind adj x with _ | deps
  · rw [hfind] at h; cases h
  · rw [← mfind_isSome, hfind]; rfl

/-- The black (finished) region of a DFS state is edge-closed: every edge out
of a visited node not on the stack lands on a visited node not on the
stack. -/
def EdgeClosed (adj : List (Nat × List Nat)) (V st : List Nat) : Prop :=
  ∀ x, x ∈ V → x ∉ st → ∀ y, edgeOf adj x y → y ∈ V ∧ y ∉ st

/-- No finished node lies on a cycle. -/
def DoneAcyclic (adj : List (Nat × List Nat)) (V st : List Nat) : Prop :=
  ∀ x, x ∈ V → x ∉ st → ¬ Relation.TransGen (edgeOf adj) x x

theorem rt_closed {adj : List (Nat × List Nat)} {V S : List Nat}
    (hcl : EdgeClosed adj V S) {x y : Nat}
    (h : Relation.ReflTransGen (edgeOf adj) x y) :
    x ∈ V → x ∉ S → y ∈ V ∧ y ∉ S := by
  induction h with
  | refl => exact fun hv hs => ⟨hv, hs⟩
  | tail _ hedge ih =>
    intro hv hs
    obtain ⟨hv', hs'⟩ := ih hv hs
    exact hcl _ hv' hs' _ hedge

/-- Number of universe ids not yet visited; the DFS nesting-depth measure. -/
def unvisited (univ V : List Nat) : Nat :=
  (univ.toFinset \ V.toFinset).card

theorem unvisited_le_length (univ : List Nat) : unvisited univ [] ≤ univ.length := by
  unfold unvisited
  simp only [List.toFinset_nil, Finset.sdiff_empty]
  exact List.toFinset_card_le univ

theorem unvisited_mono {univ V V' : List Nat} (h : ∀ x ∈ V, x ∈ V') :
    unvisited univ V' ≤ unvisited univ V := by
  apply Finset.card_le_card
  apply Finset.sdiff_subset_sdiff (le_refl _)
  intro x hx
  rw [List.mem_toFinset] at hx ⊢
  exact h x hx

theorem unvisited_cons {univ V : List Nat} {n : Nat} (hn : n ∈ univ) (hnv : n ∉ V) :
    unvisited univ (n :: V) + 1 = unvisited univ V := by
  unfold unvisited
  rw [List.toFinset_cons, Finset.sdiff_insert, Finset.card_erase_of_mem]
  · have hpos : 0 < (univ.toFinset \ V.toFinset).card := by
      apply Finset.card_pos.2
      exact ⟨n, Finset.mem_sdiff.2 ⟨List.mem_toFinset.2 hn, fun h => hnv (List.mem_toFinset.1 h)⟩⟩
    omega
  · exact Finset.mem_sdiff.2 ⟨List.mem_toFinset.2 hn, fun h => hnv (List.mem_toFinset.1 h)⟩

/-- Statement of DFS soundness at a given fuel: a true answer exhibits a
cycle reachable from the reference node `r`. -/
def DfsSound (adj : List (Nat × List Nat)) (fuel : Nat) : Prop :=
  ∀ n st V r,
    (∀ s ∈ st, Relation.TransGen (edgeOf adj) s n) →
    Relation.ReflTransGen (edgeOf adj) r n →
    (dfs adj fuel n st V).1 = true →
    ∃ c, Relation.TransGen (edgeOf adj) c c ∧ Relation.ReflTransGen (edgeOf adj) r c

theorem dfsList_sound_of (adj : List (Nat × List Nat)) (fuel : Nat)
    (hdfs : DfsSound adj fuel) :
    ∀ deps st V r,
      (∀ d ∈ deps, (∀ s ∈ st, Relation.TransGen (edgeOf adj) s d) ∧
        Relation.ReflTransGen (edgeOf adj) r d) →
      (dfsList adj fuel deps st V).1 = true →
      ∃ c, Relation.TransGen (edgeOf adj) c c ∧ Relation.ReflTransGen (edgeOf adj) r c := by
  intro deps
  induction deps with
  | nil => intro st V r _ h; simp [dfsList] at h
  | cons d ds ih =>
    intro st V r hd h
    rw [dfsList] at h
    rcases hres : dfs adj fuel d st V with ⟨r₁, V₁⟩
    rw [hres] at h
    cases r₁ with
    | true =>
      exact hdfs d st V r (hd d (by simp)).1 (hd d (by simp)).2 (by rw [hres])
    | false =>
      exact ih st V₁ r (fun d' hd' => hd d' (by simp [hd'])) h

theorem dfs_sound (adj : List (Nat × List Nat)) : ∀ fuel, DfsSound adj fuel := by
  intro fuel
  induction fuel with
  | zero => intro n st V r _ _ h; simp [dfs] at h
  | succ fuel ih =>
    intro n st V r hst hr h
    rw [dfs] at h
    by_cases hn : n ∈ st
    · exact ⟨n, hst n hn, hr⟩
    · rw [if_neg hn] at h
      by_cases hv : n ∈ V
      · rw [if_pos hv] at h; cases h
      · rw [if_neg hv] at h
        refine dfsList_sound_of adj fuel ih (depsOf adj n) (n :: st) (n :: V) r ?_ h
        intro d hd
        have hedge : edgeOf adj n d := hd
        constructor
        · intro s hs
          rcases List.mem_cons.1 hs with h1 | h1
          · subst h1; exact Relation.TransGen.single hedge
          · exact Relation.TransGen.tail (hst s h1) hedge
        · exact Relation.ReflTransGen.tail hr hedge

theorem dfsRoots_sound (adj : List (Nat × List Nat)) (fuel : Nat) :
    ∀ roots V,
      dfsRoots adj fuel roots V = true →
      ∃ c r, Relation.TransGen (edgeOf adj) c c ∧ r ∈ roots ∧
        Relation.ReflTransGen (edgeOf adj) r c := by
  intro roots
  induction roots with
  | nil => intro V h; simp [dfsRoots] at h
  | cons r rs ih =>
    intro V h
    rw [dfsRoots] at h
    by_cases hv : r ∈ V
    · rw [if_pos hv] at h
      obtain ⟨c, r', hc, hr', hrc⟩ := ih V h
      exact ⟨c, r', hc, by simp [hr'], hrc⟩
    · rw [if_neg hv] at h
      rcases hres : dfs adj fuel r [] V with ⟨r₁, V₁⟩
      rw [hres] at h
      cases r₁ with
      | true =>
        obtain ⟨c, hc, hrc⟩ := dfs_sound adj fuel r [] V r (by simp)
          Relation.ReflTransGen.refl (by rw [hres])
        exact ⟨c, r, hc, by simp, hrc⟩
      | false =>
        obtain ⟨c, r', hc, hr', hrc⟩ := ih V₁ h
        exact ⟨c, r', hc, by simp [hr'], hrc⟩

/-- Statement of the DFS false-case invariant at a given fuel: a false
answer from a sufficiently fuelled call extends the visited set to cover the
node, keeps the finished region edge-closed, and keeps it cycle-free. -/
def DfsFalse (adj : List (Nat × List Nat)) (univ : List Nat) (fuel : Nat) : Prop :=
  ∀ n st V V',
    n ∈ univ →
    unvisited univ V + 1 ≤ fuel →
    EdgeClosed adj V st → DoneAcyclic adj V st →
    dfs adj fuel n st V = (false, V') →
    (∀ x ∈ V, x ∈ V') ∧ n ∈ V' ∧ n ∉ st ∧ EdgeClosed adj V' st ∧ DoneAcyclic adj V' st

theorem dfsList_false_of (adj : List (Nat × List Nat)) (univ : List Nat) (fuel : Nat)
    (hdfs : DfsFalse adj univ fuel) :
    ∀ deps st V V',
      (∀ d ∈ deps, d ∈ univ) →
      unvisited univ V + 1 ≤ fuel →
      EdgeClosed adj V st → DoneAcyclic adj V st →
      dfsList adj fuel deps st V = (false, V') →
      (∀ x ∈ V, x ∈ V') ∧ EdgeClosed adj V' st ∧ DoneAcyclic adj V' st ∧
        ∀ d ∈ deps, d ∈ V' ∧ d ∉ st := by
  intro deps
  induction deps with
  | nil =>
    intro st V V' _ _ hcl hda heq
    rw [dfsList] at heq
    injection heq with h1 h2
    subst h2
    exact ⟨fun x hx => hx, hcl, hda, by simp⟩
  | cons d ds ih =>
    intro st V V' hdeps hfuel hcl hda heq
    rw [dfsList] at heq
    rcases hres : dfs adj fuel d st V with ⟨r₁, V₁⟩
    rw [hres] at heq
    cases r₁ with
    | true => cases heq
    | false =>
      obtain ⟨hsub, hdV, hdst, hcl₁, hda₁⟩ :=
        hdfs d st V V₁ (hdeps d (by simp)) hfuel hcl hda hres
      have hfuel₁ : unvisited univ V₁ + 1 ≤ fuel :=
        le_trans (add_le_add_right (unvisited_mono hsub) 1) hfuel
      obtain ⟨hsub₂, hcl₂, hda₂, hds⟩ :=
        ih st V₁ V' (fun d' h => hdeps d' (by simp [h])) hfuel₁ hcl₁ hda₁ heq
      refine ⟨fun x hx => hsub₂ x (hsub x hx), hcl₂, hda₂, ?_⟩
      intro d' hd'
      rcases List.mem_cons.1 hd' with h | h
      · subst h; exact ⟨hsub₂ d' hdV, hdst⟩
      · exact hds d' h

theorem dfs_false (adj : List (Nat × List Nat)) (univ : List Nat)
    (hadj : ∀ x y, edgeOf adj x y → y ∈ univ) :
    ∀ fuel, DfsFalse adj univ fuel := by
  intro fuel
  induction fuel with
  | zero => intro n st V V' hn hfuel; omega
  | succ fuel ih =>
    intro n st V V' hn hfuel hcl hda heq
    rw [dfs] at heq
    by_cases hst : n ∈ st
    · rw [if_pos hst] at heq; cases heq
    · rw [if_neg hst] at heq
      by_cases hv : n ∈ V
      · rw [if_pos hv] at heq
        injection heq with h1 h2
        subst h2
        exact ⟨fun x hx => hx, hv, hst, hcl, hda⟩
      · rw [if_neg hv] at heq
        have hcl' : EdgeClosed adj (n :: V) (n :: st) := by
          intro x hx hxs y hxy
          have hx' : x ∈ V := by
            rcases List.mem_cons.1 hx with h | h
            · exact absurd (h ▸ List.mem_cons_self n st) hxs
            · exact h
          have hxs' : x ∉ st := fun h => hxs (List.mem_cons_of_mem _ h)
          obtain ⟨hy1, hy2⟩ := hcl x hx' hxs' y hxy
          refine ⟨List.mem_cons_of_mem _ hy1, ?_⟩
          intro hy3
          rcases List.mem_cons.1 hy3 with h | h
          · exact hv (h ▸ hy1)
          · exact hy2 h
        have hda' : DoneAcyclic adj (n :: V) (n :: st) := by
          intro x hx hxs
          have hx' : x ∈ V := by
            rcases List.mem_cons.1 hx with h | h
            · exact absurd (h ▸ List.mem_cons_self n st) hxs
            · exact h
          exact hda x hx' (fun h => hxs (List.mem_cons_of_mem _ h))
        have hfuel' : unvisited univ (n :: V) + 1 ≤ fuel := by
          have := unvisited_cons hn hv
          omega
        obtain ⟨hsub, hcl'', hda'', hchild⟩ :=
          dfsList_false_of adj univ fuel ih (depsOf adj n) (n :: st) (n :: V) V'
            (fun d hd => hadj n d hd) hfuel' hcl' hda' heq
        have hnV' : n ∈ V' := hsub n (List.mem_cons_self n V)
        have hVsub : ∀ x ∈ V, x ∈ V' := fun x hx => hsub x (List.mem_cons_of_mem _ hx)
        refine ⟨hVsub, hnV', hst, ?_, ?_⟩
        · intro x hx hxs y hxy
          by_cases hxn : x = n
          · subst hxn
            have hd := hchild y hxy
            exact ⟨hd.1, fun h => hd.2 (List.mem_cons_of_mem _ h)⟩
          · have hxns : x ∉ n :: st := by
              intro h
              rcases List.mem_cons.1 h with h1 | h1
              · exact hxn h1
              · exact hxs h1
            have hy := hcl'' x hx hxns y hxy
            refine ⟨hy.1, fun h => hy.2 (List.mem_cons_of_mem _ h)⟩
        · intro x hx hxs hcyc
          by_cases hxn : x = n
          · subst hxn
            obtain ⟨y, hey, hry⟩ := (Relation.TransGen.head'_iff).1 hcyc
            have hd := hchild y hey
            have hr := rt_closed hcl'' hry hd.1 hd.2
            exact hr.2 (List.mem_cons_self x st)
          · have hxns : x ∉ n :: st := by
              intro h
              rcases List.mem_cons.1 h with h1 | h1
              · exact hxn h1
              · exact hxs h1
            exact hda'' x hx hxns hcyc

theorem dfsRoots_false (adj : List (Nat × List Nat)) (univ : List Nat)
    (hadj : ∀ x y, edgeOf adj x y → y ∈ univ) (fuel : Nat) :
    ∀ roots V,
      (∀ r ∈ roots, r ∈ univ) →
      unvisited univ V + 1 ≤ fuel →
      EdgeClosed adj V [] → DoneAcyclic adj V [] →
      dfsRoots adj fuel roots V = false →
      ∃ V', (∀ x ∈ V, x ∈ V') ∧ (∀ r ∈ roots, r ∈ V') ∧
        EdgeClosed adj V' [] ∧ DoneAcyclic adj V' [] := by
  intro roots
  induction roots with
  | nil =>
    intro V _ _ hcl hda _
    exact ⟨V, fun x hx => hx, by simp, hcl, hda⟩
  | cons r rs ih =>
    intro V hroots hfuel hcl hda heq
    rw [dfsRoots] at heq
    by_cases hv : r ∈ V
    · rw [if_pos hv] at heq
      obtain ⟨V', hsub, hrs, hcl', hda'⟩ :=
        ih V (fun r' h => hroots r' (by simp [h])) hfuel hcl hda heq
      refine ⟨V', hsub, ?_, hcl', hda'⟩
      intro r' hr'
      rcases List.mem_cons.1 hr' with h | h
      · exact h ▸ hsub r hv
      · exact hrs r' h
    · rw [if_neg hv] at heq
      rcases hres : dfs adj fuel r [] V with ⟨r₁, V₁⟩
      rw [hres] at heq
      cases r₁ with
      | true => cases heq
      | false =>
        obtain ⟨hsub, hrV, _, hcl₁, hda₁⟩ :=
          dfs_false adj univ hadj fuel r [] V V₁ (hroots r (by simp)) hfuel hcl hda hres
        have hfuel₁ : unvisited univ V₁ + 1 ≤ fuel :=
          le_trans (add_le_add_right (unvisited_mono hsub) 1) hfuel
        obtain ⟨V', hsub₂, hrs, hcl', hda'⟩ :=
          ih V₁ (fun r' h => hroots r' (by simp [h])) hfuel₁ hcl₁ hda₁ heq
        refine ⟨V', fun x hx => hsub₂ x (hsub x hx), ?_, hcl', hda'⟩
        intro r' hr'
        rcases List.mem_cons.1 hr' with h | h
        · exact h ▸ hsub₂ r hrV
        · exact hrs r' h

/-- Exact characterization of hasCircularDependency: it answers true exactly
when the graph-plus-candidate-edge contains a cycle reachable from some node
of the node map. -/
theorem hasCircularDependency_true_iff (g : DependencyGraph) (a b : Nat) :
    hasCircularDependency g a b = true ↔
      ∃ c r, Relation.TransGen (edgeOf (tempAdjOf g a b)) c c ∧ r ∈ mkeys g.nodes ∧
        Relation.ReflTransGen (edgeOf (tempAdjOf g a b)) r c := by
  constructor
  · intro h
    simp only [hasCircularDependency] at h
    obtain ⟨c, r, hc, hr, hrc⟩ := dfsRoots_sound _ _ _ _ h
    exact ⟨c, r, hc, hr, hrc⟩
  · rintro ⟨c, r, hc, hr, hrc⟩
    by_contra hfalse
    rw [Bool.not_eq_true] at hfalse
    simp only [hasCircularDependency] at hfalse
    have hadj : ∀ x y, edgeOf (tempAdjOf g a b) x y →
        y ∈ mkeys g.nodes ++ adjIds (tempAdjOf g a b) := by
      intro x y h
      exact List.mem_append.2 (Or.inr (edge_target_mem_adjIds h))
    have hroots : ∀ r' ∈ mkeys g.nodes, r' ∈ mkeys g.nodes ++ adjIds (tempAdjOf g a b) :=
      fun r' h => List.mem_append.2 (Or.inl h)
    have hlen : (mkeys g.nodes ++ adjIds (tempAdjOf g a b)).length =
        g.nodes.length + adjSize (tempAdjOf g a b) := by
      simp [mkeys, adjSize, List.length_append]
    have hfuel : unvisited (mkeys g.nodes ++ adjIds (tempAdjOf g a b)) [] + 1 ≤
        g.nodes.length + adjSize (tempAdjOf g a b) + 1 := by
      have h1 := unvisited_le_length (mkeys g.nodes ++ adjIds (tempAdjOf g a b))
      omega
    obtain ⟨V', _, hrootsV, hcl, hda⟩ :=
      dfsRoots_false (tempAdjOf g a b) (mkeys g.nodes ++ adjIds (tempAdjOf g a b)) hadj
        (g.nodes.length + adjSize (tempAdjOf g a b) + 1) (mkeys g.nodes) []
        hroots hfuel (fun x hx => absurd hx (List.not_mem_nil x))
        (fun x hx => absurd hx (List.not_mem_nil x)) hfalse
    have hcV := rt_closed hcl hrc (hrootsV r hr) (List.not_mem_nil r)
    exact hda c hcV.1 (List.not_mem_nil c) hc

/-- Classification of the temporary graph's edges: an original edge or
exactly the candidate edge. -/
theorem temp_edge_iff (g : DependencyGraph) (a b : Nat) (x y : Nat) :
    edgeOf (tempAdjOf g a b) x y ↔
      edgeOf g.adjacencyList x y ∨ (x = a ∧ y = b) := by
  by_cases hx : x = a
  · subst hx
    unfold tempAdjOf edgeOf depsOf
    rw [mfind_mset_self]
    simp [List.mem_append]
  · unfold tempAdjOf edgeOf depsOf
    rw [mfind_mset_ne _ _ _ hx]
    simp [hx]

theorem temp_edge_of_edge (g : DependencyGraph) (a b : Nat) {x y : Nat}
    (h : edgeOf g.adjacencyList x y) : edgeOf (tempAdjOf g a b) x y :=
  (temp_edge_iff g a b x y).2 (Or.inl h)

/-- Any path in the temporary graph that ends at `a` can be replayed in the
original graph: the only new edge leaves from `a` itself, so the path can be
cut there. -/
theorem temp_path_to_a (g : DependencyGraph) (a b : Nat) :
    ∀ x, Relation.ReflTransGen (edgeOf (tempAdjOf g a b)) x a →
      Relation.ReflTransGen (edgeOf g.adjacencyList) x a := by
  intro x h
  induction h using Relation.ReflTransGen.head_induction_on with
  | refl => exact Relation.ReflTransGen.refl
  | head hxy _ ih =>
    rcases (temp_edge_iff g a b _ _).1 hxy with h1 | ⟨h2, _⟩
    · exact Relation.ReflTransGen.head h1 ih
    · subst h2; exact Relation.ReflTransGen.refl

/-- Any nonempty path in the temporary graph is either entirely original, or
passes through the candidate edge, splitting into a temp path into `a` and a
temp path out of `b`. -/
theorem temp_cycle_decompose (g : DependencyGraph) (a b : Nat) :
    ∀ x y, Relation.TransGen (edgeOf (tempAdjOf g a b)) x y →
      Relation.TransGen (edgeOf g.adjacencyList) x y ∨
        (Relation.ReflTransGen (edgeOf (tempAdjOf g a b)) x a ∧
         Relation.ReflTransGen (edgeOf (tempAdjOf g a b)) b y) := by
  intro x y h
  induction h with
  | single he =>
    rcases (temp_edge_iff g a b _ _).1 he with h1 | ⟨h2, h3⟩
    · exact Or.inl (Relation.TransGen.single h1)
    · subst h2; subst h3
      exact Or.inr ⟨Relation.ReflTransGen.refl, Relation.ReflTransGen.refl⟩
  | tail hxm hyz ih =>
    rename_i mid z
    rcases (temp_edge_iff g a b _ _).1 hyz with h1 | ⟨h2, h3⟩
    · rcases ih with h4 | ⟨h4, h5⟩
      · exact Or.inl (h4.tail h1)
      · exact Or.inr ⟨h4, h5.tail (temp_edge_of_edge g a b h1)⟩
    · rcases ih with h4 | ⟨h4, _⟩
      · refine Or.inr ⟨?_, by rw [h3]⟩
        have h5 : Relation.ReflTransGen (edgeOf (tempAdjOf g a b)) x mid :=
          Relation.ReflTransGen.mono (fun p q hpq => temp_edge_of_edge g a b hpq)
            h4.to_reflTransGen
        exact h2 ▸ h5
      · refine Or.inr ⟨h4, by rw [h3]⟩

/-! ### C1 and C10: the cycle detector -/

/-- C1 counterexample: on the acyclic single-node graph, the candidate
self-edge (5, 5) on an id that is not a node yields false, although a
(trivial) path from 5 to 5 exists, so the claimed equivalence fails at
a = b. -/
theorem hasCircularDependency_selfedge_cex :
    WellFormed exGraphSingle ∧
    Acyclic exGraphSingle.adjacencyList ∧
    Relation.ReflTransGen (edgeOf exGraphSingle.adjacencyList) 5 5 ∧
    hasCircularDependency exGraphSingle 5 5 = false :=
  ⟨by decide, acyclic_of_rank _ (fun _ => 0) (by decide),
    Relation.ReflTransGen.refl, by
      simp +decide [hasCircularDependency, dfsRoots, dfs, dfsList, tempAdjOf, mset,
        mfind, mkeys, depsOf, adjSize, adjIds, exGraphSingle, exTask]⟩

/-- On a well-formed acyclic graph with a ≠ b, the detector run with
candidate edge (a, b) answers true exactly when a path from b to a already
exists (shared kernel of the C1 and C2 arguments). -/
theorem hasCirc_reaches (g : DependencyGraph) (a b : Nat)
    (hwf : WellFormed g) (hacyc : Acyclic g.adjacencyList) (hab : a ≠ b) :
    hasCircularDependency g a b = true ↔
      Relation.ReflTransGen (edgeOf g.adjacencyList) b a := by
  rw [hasCircularDependency_true_iff]
  constructor
  · rintro ⟨c, r, hc, _, _⟩
    rcases temp_cycle_decompose g a b c c hc with h1 | ⟨h2, h3⟩
    · exact absurd h1 (hacyc c)
    · exact temp_path_to_a g a b b (h3.trans h2)
  · intro h
    rcases h.cases_tail with he | ⟨x, hbx, hxa⟩
    · exact absurd he hab
    refine ⟨a, x, ?_, ?_, ?_⟩
    · refine Relation.TransGen.head' ((temp_edge_iff g a b a b).2 (Or.inr ⟨rfl, rfl⟩)) ?_
      exact Relation.ReflTransGen.mono (fun p q hpq => temp_edge_of_edge g a b hpq) h
    · rw [← hwf.2.1]
      exact edge_source_mem_mkeys hxa
    · exact Relation.ReflTransGen.single (temp_edge_of_edge g a b hxa)

/-- C1 (amended: candidate edges with distinct endpoints): for a well-formed
acyclic graph and a ≠ b, hasCircularDependency(G, a, b) is true exactly when
G already has a dependency path from b to a. -/
theorem hasCircularDependency_iff_reaches (g : DependencyGraph) (a b : Nat)
    (hwf : WellFormed g) (hacyc : Acyclic g.adjacencyList) (hab : a ≠ b) :
    hasCircularDependency g a b = true ↔
      Relation.ReflTransGen (edgeOf g.adjacencyList) b a :=
  hasCirc_reaches g a b hwf hacyc hab

/-- Witness for the amended C1 on the two-task chain (1 depends on 2),
candidate edge 2 → 1: the path 1 → 2 exists, so the detector answers
true. -/
theorem hasCircularDependency_iff_reaches_witness :
    WellFormed exGraphChain ∧ Acyclic exGraphChain.adjacencyList ∧ (2 : Nat) ≠ 1 ∧
      (hasCircularDependency exGraphChain 2 1 = true ↔
        Relation.ReflTransGen (edgeOf exGraphChain.adjacencyList) 1 2) :=
  ⟨by decide, acyclic_of_rank _ (fun k => 3 - k) (by decide), by decide,
    hasCircularDependency_iff_reaches exGraphChain 2 1 (by decide)
      (acyclic_of_rank _ (fun k => 3 - k) (by decide)) (by decide)⟩

/-- C10: on a well-formed graph that already contains a cycle,
hasCircularDependency answers true for every candidate edge, however
unrelated: the detector reports any cycle in the graph-plus-edge, not just
cycles the new edge creates. -/
theorem hasCircularDependency_of_cycle (g : DependencyGraph) (hwf : WellFormed g)
    (hcyc : ∃ c, Relation.TransGen (edgeOf g.adjacencyList) c c) (a b : Nat) :
    hasCircularDependency g a b = true := by
  obtain ⟨c, hc⟩ := hcyc
  apply (hasCircularDependency_true_iff g a b).2
  have hc' : Relation.TransGen (edgeOf (tempAdjOf g a b)) c c :=
    Relation.TransGen.mono (fun p q hpq => temp_edge_of_edge g a b hpq) hc
  have hcroot : c ∈ mkeys g.nodes := by
    obtain ⟨y, hey, _⟩ := (Relation.TransGen.head'_iff).1 hc
    rw [← hwf.2.1]
    exact edge_source_mem_mkeys hey
  exact ⟨c, c, hc', hcroot, Relation.ReflTransGen.refl⟩

/-- Witness for C10: the two-task cycle plus the entirely unrelated
candidate edge (5, 7) is still reported as circular. -/
theorem hasCircularDependency_of_cycle_witness :
    WellFormed exGraphCyc ∧
      (∃ c, Relation.TransGen (edgeOf exGraphCyc.adjacencyList) c c) ∧
      hasCircularDependency exGraphCyc 5 7 = true := by
  have h12 : edgeOf exGraphCyc.adjacencyList 1 2 := by decide
  have h21 : edgeOf exGraphCyc.adjacencyList 2 1 := by decide
  have hcyc : ∃ c, Relation.TransGen (edgeOf exGraphCyc.adjacencyList) c c :=
    ⟨1, Relation.TransGen.head h12 (Relation.TransGen.single h21)⟩
  exact ⟨by decide, hcyc, hasCircularDependency_of_cycle exGraphCyc (by decide) hcyc 5 7⟩

/-! ### C2: addDependency validation and persistence order -/

/-- C2: addDependency rejects a self-referential edge, then a duplicate
edge, then (on the current graph) any edge whose addition would create a
cycle, throwing (Except.error) before any write in each case, so the edge
set is unchanged; only when all checks pass does it persist exactly the new
edge and invoke the full reschedule on the extended database.  On an acyclic
well-formed graph the cycle rejection triggers exactly when a dependency
path from dependsOnId back to taskId already exists. -/
theorem addDependency_spec (db : DB) (refDay : Int) (t d : Nat)
    (hwf : WellFormed (buildDependencyGraph db))
    (hacyc : Acyclic (buildDependencyGraph db).adjacencyList) :
    (t = d → addDependency db refDay t d =
      Except.error "A task cannot depend on itself") ∧
    (t ≠ d → (db.deps.find? fun e => e.1 == t && e.2 == d).isSome →
      addDependency db refDay t d =
        Except.error "This dependency already exists") ∧
    (t ≠ d → ¬ (db.deps.find? fun e => e.1 == t && e.2 == d).isSome →
      Relation.ReflTransGen (edgeOf (buildDependencyGraph db).adjacencyList) d t →
      addDependency db refDay t d =
        Except.error "Adding this dependency would create a circular dependency") ∧
    (t ≠ d → ¬ (db.deps.find? fun e => e.1 == t && e.2 == d).isSome →
      ¬ Relation.ReflTransGen (edgeOf (buildDependencyGraph db).adjacencyList) d t →
      addDependency db refDay t d =
        Except.ok (updateTaskScheduling { db with deps := db.deps ++ [(t, d)] } refDay) ∧
      (updateTaskScheduling { db with deps := db.deps ++ [(t, d)] } refDay).deps =
        db.deps ++ [(t, d)]) := by
  refine ⟨?_, ?_, ?_, ?_⟩
  · intro ht
    simp [addDependency, ht]
  · intro ht hdup
    simp [addDependency, ht, hdup]
  · intro ht hdup hreach
    have hcirc : hasCircularDependency (buildDependencyGraph db) t d = true :=
      (hasCirc_reaches (buildDependencyGraph db) t d hwf hacyc ht).2 hreach
    simp [addDependency, ht, hdup, hcirc]
  · intro ht hdup hreach
    have hcirc : hasCircularDependency (buildDependencyGraph db) t d = false := by
      rw [← Bool.not_eq_true]
      intro hc
      exact hreach
        ((hasCirc_reaches (buildDependencyGraph db) t d hwf hacyc ht).1 hc)
    refine ⟨?_, rfl⟩
    simp [addDependency, ht, hdup, hcirc]

/-- Witness for C2 at Scenario B: with 1 depending on 2 and 2 depending on
3, the request that 3 depend on 1 is rejected with the cycle error. -/
theorem addDependency_spec_witness :
    WellFormed (buildDependencyGraph exDBB) ∧
      addDependency exDBB 100 3 1 =
        Except.error "Adding this dependency would create a circular dependency" := by
  have hacyc : Acyclic (buildDependencyGraph exDBB).adjacencyList :=
    acyclic_of_rank _ (fun k => 4 - k) (by decide)
  have h12 : edgeOf (buildDependencyGraph exDBB).adjacencyList 1 2 := by decide
  have h23 : edgeOf (buildDependencyGraph exDBB).adjacencyList 2 3 := by decide
  have hreach : Relation.ReflTransGen (edgeOf (buildDependencyGraph exDBB).adjacencyList) 1 3 :=
    Relation.ReflTransGen.head h12 (Relation.ReflTransGen.head h23 Relation.ReflTransGen.refl)
  exact ⟨by decide,
    (addDependency_spec exDBB 100 3 1 (by decide) hacyc).2.2.1 (by decide) (by decide) hreach⟩

/-! ### Kahn loop invariants -/

theorem decrementPass_find (cur : Nat) :
    ∀ (es : List (Nat × List Nat)) (m : List (Nat × Int)) (k : Nat),
      (mkeys es).Nodup →
      mfind (decrementPass cur es m).1 k =
        match mfind es k with
        | some deps => if cur ∈ deps then some ((mfind m k).getD 0 - 1) else mfind m k
        | none => mfind m k := by
  intro es
  induction es with
  | nil => intro m k _; simp [decrementPass, mfind]
  | cons p rest ih =>
    obtain ⟨taskId, deps⟩ := p
    intro m k hnd
    rw [mkeys_cons, List.nodup_cons] at hnd
    by_cases hcur : cur ∈ deps
    · rw [decrementPass, if_pos hcur]
      rw [ih _ k hnd.2]
      by_cases hk : k = taskId
      · subst hk
        have hrest : mfind rest k = none := (mfind_eq_none rest k).2 hnd.1
        rw [hrest, mfind_cons]
        simp only [if_pos rfl, hcur, if_pos, mfind_mset_self]
      · have hne : ¬ ((taskId, deps) : Nat × List Nat).1 = k := fun h => hk h.symm
        rw [mfind_cons, if_neg hne, mfind_mset_ne _ _ _ hk]
    · rw [decrementPass, if_neg hcur]
      rw [ih _ k hnd.2]
      by_cases hk : k = taskId
      · subst hk
        have hrest : mfind rest k = none := (mfind_eq_none rest k).2 hnd.1
        rw [hrest, mfind_cons]
        simp [hcur]
      · have hne : ¬ ((taskId, deps) : Nat × List Nat).1 = k := fun h => hk h.symm
        rw [mfind_cons, if_neg hne]

theorem decrementPass_keys (cur : Nat) :
    ∀ (es : List (Nat × List Nat)) (m : List (Nat × Int)),
      (∀ k ∈ mkeys es, k ∈ mkeys m) →
      mkeys (decrementPass cur es m).1 = mkeys m := by
  intro es
  induction es with
  | nil => intro m _; simp [decrementPass]
  | cons p rest ih =>
    obtain ⟨taskId, deps⟩ := p
    intro m hmem
    by_cases hcur : cur ∈ deps
    · rw [decrementPass, if_pos hcur]
      have hmt : taskId ∈ mkeys m := hmem taskId (by simp [mkeys_cons])
      have hk := mkeys_mset_mem ((mfind m taskId).getD 0 - 1) hmt
      rw [ih _ (fun k hk' => by rw [hk]; exact hmem k (by simp [mkeys_cons, hk']))]
      exact hk
    · rw [decrementPass, if_neg hcur]
      exact ih _ (fun k hk' => hmem k (by simp [mkeys_cons, hk']))

theorem decrementPass_zs (cur : Nat) :
    ∀ (es : List (Nat × List Nat)) (m : List (Nat × Int)) (t : Nat),
      (mkeys es).Nodup →
      (t ∈ (decrementPass cur es m).2 ↔
        ∃ deps, mfind es t = some deps ∧ cur ∈ deps ∧ (mfind m t).getD 0 - 1 = 0) := by
  intro es
  induction es with
  | nil => intro m t _; simp [decrementPass, mfind]
  | cons p rest ih =>
    obtain ⟨taskId, deps⟩ := p
    intro m t hnd
    rw [mkeys_cons, List.nodup_cons] at hnd
    by_cases hcur : cur ∈ deps
    · rw [decrementPass, if_pos hcur]
      by_cases ht : t = taskId
      · subst ht
        have hrest : mfind rest t = none := (mfind_eq_none rest t).2 hnd.1
        constructor
        · intro hmem
          simp only at hmem
          by_cases hz : (mfind m t).getD 0 - 1 = 0
          · exact ⟨deps, by rw [mfind_cons]; simp, hcur, hz⟩
          · rw [if_neg hz] at hmem
            obtain ⟨deps', hfind', _, _⟩ := (ih _ t hnd.2).1 hmem
            rw [hrest] at hfind'; cases hfind'
        · rintro ⟨deps', hfind', hcur', hz'⟩
          show t ∈ if (mfind m t).getD 0 - 1 = 0 then
              t :: (decrementPass cur rest (mset m t ((mfind m t).getD 0 - 1))).2
            else (decrementPass cur rest (mset m t ((mfind m t).getD 0 - 1))).2
          rw [if_pos hz']
          exact List.mem_cons_self t _
      · have hne : ¬ ((taskId, deps) : Nat × List Nat).1 = t := fun h => ht h.symm
        have hstep : t ∈ (decrementPass cur rest
            (mset m taskId ((mfind m taskId).getD 0 - 1))).2 ↔
            ∃ deps', mfind rest t = some deps' ∧ cur ∈ deps' ∧
              (mfind m t).getD 0 - 1 = 0 := by
          rw [ih _ t hnd.2]
          constructor
          · rintro ⟨d', h1, h2, h3⟩
            rw [mfind_mset_ne _ _ _ ht] at h3
            exact ⟨d', h1, h2, h3⟩
          · rintro ⟨d', h1, h2, h3⟩
            rw [← mfind_mset_ne m taskId ((mfind m taskId).getD 0 - 1) ht] at h3
            exact ⟨d', h1, h2, h3⟩
        constructor
        · intro hmem
          simp only at hmem
          have hmem' : t ∈ (decrementPass cur rest
              (mset m taskId ((mfind m taskId).getD 0 - 1))).2 := by
            by_cases hz : (mfind m taskId).getD 0 - 1 = 0
            · rw [if_pos hz] at hmem
              rcases List.mem_cons.1 hmem with h | h
              · exact absurd h ht
              · exact h
            · rwa [if_neg hz] at hmem
          obtain ⟨d', h1, h2, h3⟩ := hstep.1 hmem'
          exact ⟨d', by rw [mfind_cons, if_neg hne]; exact h1, h2, h3⟩
        · rintro ⟨d', h1, h2, h3⟩
          rw [mfind_cons, if_neg hne] at h1
          have hmem' := hstep.2 ⟨d', h1, h2, h3⟩
          simp only
          by_cases hz : (mfind m taskId).getD 0 - 1 = 0
          · rw [if_pos hz]; exact List.mem_cons_of_mem _ hmem'
          · rwa [if_neg hz]
    · rw [decrementPass, if_neg hcur]
      rw [ih _ t hnd.2]
      constructor
      · rintro ⟨d', h1, h2, h3⟩
        refine ⟨d', ?_, h2, h3⟩
        rw [mfind_cons]
        by_cases ht : t = taskId
        · subst ht
          rw [(mfind_eq_none rest t).2 hnd.1] at h1; cases h1
        · rw [if_neg (fun h => ht h.symm)]; exact h1
      · rintro ⟨d', h1, h2, h3⟩
        rw [mfind_cons] at h1
        by_cases ht : ((taskId, deps) : Nat × List Nat).1 = t
        · simp only [if_pos ht] at h1
          obtain rfl := Option.some_inj.1 h1
          exact absurd h2 hcur
        · rw [if_neg ht] at h1
          exact ⟨d', h1, h2, h3⟩

theorem decrementPass_zs_sublist (cur : Nat) :
    ∀ (es : List (Nat × List Nat)) (m : List (Nat × Int)),
      (decrementPass cur es m).2.Sublist (mkeys es) := by
  intro es
  induction es with
  | nil => intro m; simp [decrementPass]
  | cons p rest ih =>
    obtain ⟨taskId, deps⟩ := p
    intro m
    by_cases hcur : cur ∈ deps
    · rw [decrementPass, if_pos hcur, mkeys_cons]
      by_cases hz : (mfind m taskId).getD 0 - 1 = 0
      · simp only [if_pos hz]
        exact List.Sublist.cons₂ taskId (ih _)
      · simp only [if_neg hz]
        exact List.Sublist.cons taskId (ih _)
    · rw [decrementPass, if_neg hcur, mkeys_cons]
      exact List.Sublist.cons taskId (ih _)

theorem mfind_const_map {A : Type} (c : A) :
    ∀ (ks : List Nat) (k : Nat),
      mfind (ks.map fun x => (x, c)) k = if k ∈ ks then some c else none := by
  intro ks
  induction ks with
  | nil => intro k; simp [mfind]
  | cons a rest ih =>
    intro k
    rw [List.map_cons, mfind_cons]
    by_cases hk : a = k
    · subst hk; simp
    · rw [if_neg hk, ih]
      by_cases hmem : k ∈ rest
      · simp [hmem]
      · have hka : ¬ k = a := fun h => hk h.symm
        simp [hmem, hka]

theorem foldl_mset_len :
    ∀ (es : List (Nat × List Nat)) (m0 : List (Nat × Int)),
      (mkeys es).Nodup →
      (∀ k ∈ mkeys es, k ∈ mkeys m0) →
      mkeys (es.foldl (fun m p => mset m p.1 ((p.2.length : Int))) m0) = mkeys m0 ∧
      ∀ k, mfind (es.foldl (fun m p => mset m p.1 ((p.2.length : Int))) m0) k =
        match mfind es k with
        | some deps => some ((deps.length : Int))
        | none => mfind m0 k := by
  intro es
  induction es with
  | nil => intro m0 _ _; exact ⟨rfl, fun k => by simp [mfind]⟩
  | cons p rest ih =>
    obtain ⟨t, deps⟩ := p
    intro m0 hnd hmem
    rw [mkeys_cons, List.nodup_cons] at hnd
    have hm1keys : mkeys (mset m0 t ((deps.length : Int))) = mkeys m0 :=
      mkeys_mset_mem _ (hmem t (by simp [mkeys_cons]))
    obtain ⟨hkeys, hvals⟩ := ih (mset m0 t ((deps.length : Int))) hnd.2
      (fun k hk => by rw [hm1keys]; exact hmem k (by simp [mkeys_cons, hk]))
    refine ⟨by rw [List.foldl_cons]; rw [hkeys, hm1keys], ?_⟩
    intro k
    rw [List.foldl_cons, hvals k, mfind_cons]
    by_cases hk : t = k
    · subst hk
      rw [(mfind_eq_none rest t).2 hnd.1]
      simp [mfind_mset_self]
    · rw [if_neg hk, mfind_mset_ne _ _ _ (fun h => hk h.symm)]

/-- On a well-formed graph, buildInDegree is the node-key list paired with
each node's prerequisite count, in order. -/
theorem buildInDegree_eq (g : DependencyGraph) (hwf : WellFormed g) :
    buildInDegree g =
      (mkeys g.nodes).map fun k => (k, ((depsOf g.adjacencyList k).length : Int)) := by
  obtain ⟨hnd, hadjk, _⟩ := hwf
  have h0 : (mkeys g.nodes).foldl (fun m k => mset m k 0) [] =
      (mkeys g.nodes).map fun k => (k, (0 : Int)) := by
    rw [foldl_mset_const 0 (mkeys g.nodes) [] (by simp [mkeys]) hnd]
    rfl
  have hmemk : ∀ k ∈ mkeys g.adjacencyList,
      k ∈ mkeys ((mkeys g.nodes).map fun k => (k, (0 : Int))) := by
    intro k hk
    rw [hadjk] at hk
    rw [← mfind_isSome, mfind_const_map, if_pos hk]
    rfl
  obtain ⟨hkeys, hvals⟩ := foldl_mset_len g.adjacencyList
    ((mkeys g.nodes).map fun k => (k, (0 : Int))) (by rw [hadjk]; exact hnd) hmemk
  have hkeys2 : mkeys ((mkeys g.nodes).map fun k => (k, (0 : Int))) = mkeys g.nodes := by
    simp [mkeys, List.map_map]
  show g.adjacencyList.foldl (fun m p => mset m p.1 ((p.2.length : Int)))
      ((mkeys g.nodes).foldl (fun m k => mset m k 0) []) = _
  rw [h0]
  have hndL : (mkeys (g.adjacencyList.foldl (fun m p => mset m p.1 ((p.2.length : Int)))
      ((mkeys g.nodes).map fun k => (k, (0 : Int))))).Nodup := by
    rw [hkeys, hkeys2]; exact hnd
  rw [assoc_eq_map 0 _ hndL]
  rw [hkeys, hkeys2]
  apply List.map_congr_left
  intro k hk
  rw [hvals k]
  have hk' : k ∈ mkeys g.adjacencyList := by rw [hadjk]; exact hk
  have : (mfind g.adjacencyList k).isSome := (mfind_isSome _ _).2 hk'
  obtain ⟨deps, hdeps⟩ := Option.isSome_iff_exists.1 this
  rw [hdeps]
  simp [depsOf, hdeps]

theorem filter_snoc_length {deps result : List Nat} {cur : Nat}
    (hnd : deps.Nodup) (hcr : cur ∉ result) :
    ((deps.filter fun x => decide (x ∉ result ++ [cur])).length : Int) =
      ((deps.filter fun x => decide (x ∉ result)).length : Int) -
        (if cur ∈ deps then 1 else 0) := by
  have hsplit : deps.filter (fun x => decide (x ∉ result ++ [cur])) =
      (deps.filter (fun x => decide (x ∉ result))).filter (fun x => x != cur) := by
    rw [List.filter_filter]
    apply List.filter_congr
    intro x _
    by_cases h1 : x ∈ result <;> by_cases h2 : x = cur <;>
      simp [h1, h2, List.mem_append]
  rw [hsplit]
  have hnd' : (deps.filter (fun x => decide (x ∉ result))).Nodup := hnd.filter _
  by_cases hc : cur ∈ deps
  · have hc' : cur ∈ deps.filter (fun x => decide (x ∉ result)) :=
      List.mem_filter.2 ⟨hc, by simp [hcr]⟩
    rw [← List.Nodup.erase_eq_filter hnd', List.length_erase_of_mem hc', if_pos hc]
    have hlen : 1 ≤ (deps.filter (fun x => decide (x ∉ result))).length :=
      List.length_pos_of_mem hc'
    rw [Nat.cast_sub hlen]
    norm_num
  · have hall : ∀ x ∈ deps.filter (fun x => decide (x ∉ result)), (x != cur) = true := by
      intro x hx
      have hx' := List.mem_filter.1 hx
      simp only [bne_iff_ne]
      intro he
      exact hc (he ▸ hx'.1)
    rw [List.filter_eq_self.2 hall, if_neg hc]
    ring

/-- In a finite vertex set where every vertex has an out-edge back into the
set, some vertex lies on a cycle. -/
theorem cycle_of_no_escape (edge : Nat → Nat → Prop) (U : List Nat) (hne : U ≠ [])
    (hstep : ∀ x ∈ U, ∃ y, y ∈ U ∧ edge x y) :
    ∃ c, Relation.TransGen edge c c := by
  classical
  have hf : ∀ x : Nat, ∃ y, x ∈ U → (y ∈ U ∧ edge x y) := by
    intro x
    by_cases hx : x ∈ U
    · obtain ⟨y, hy⟩ := hstep x hx
      exact ⟨y, fun _ => hy⟩
    · exact ⟨0, fun h => absurd h hx⟩
  choose f hfspec using hf
  obtain ⟨x0, hx0⟩ : ∃ x, x ∈ U := by
    cases U with
    | nil => exact absurd rfl hne
    | cons a t => exact ⟨a, by simp⟩
  have hiter : ∀ n, f^[n] x0 ∈ U := by
    intro n
    induction n with
    | zero => simpa using hx0
    | succ n ih =>
      rw [Function.iterate_succ_apply']
      exact (hfspec _ ih).1
  have hedge : ∀ n, edge (f^[n] x0) (f^[n + 1] x0) := by
    intro n
    rw [Function.iterate_succ_apply']
    exact (hfspec _ (hiter n)).2
  have hmaps : ∀ i ∈ Finset.range (U.length + 1), f^[i] x0 ∈ U.toFinset :=
    fun i _ => List.mem_toFinset.2 (hiter i)
  have hcard : U.toFinset.card < (Finset.range (U.length + 1)).card := by
    rw [Finset.card_range]
    exact Nat.lt_succ_of_le (List.toFinset_card_le U)
  obtain ⟨i, hi, j, hj, hij, heq⟩ :=
    Finset.exists_ne_map_eq_of_card_lt_of_maps_to hcard hmaps
  have htrans : ∀ a k, 0 < k → Relation.TransGen edge (f^[a] x0) (f^[a + k] x0) := by
    intro a k hk
    induction k with
    | zero => omega
    | succ k ih =>
      rcases Nat.eq_zero_or_pos k with h0 | hpos
      · subst h0
        exact Relation.TransGen.single (hedge a)
      · exact Relation.TransGen.tail (ih hpos) (hedge (a + k))
  rcases Nat.lt_or_ge i j with hlt | hge
  · refine ⟨f^[i] x0, ?_⟩
    have h1 := htrans i (j - i) (by omega)
    have h2 : i + (j - i) = j := by omega
    rw [h2] at h1
    rw [← heq] at h1
    exact h1
  · have hlt2 : j < i := by
      rcases Nat.lt_or_ge j i with h | h
      · exact h
      · omega
    refine ⟨f^[j] x0, ?_⟩
    have h1 := htrans j (i - j) (by omega)
    have h2 : j + (i - j) = i := by omega
    rw [h2] at h1
    rw [heq] at h1
    exact h1

theorem depsOf_mem {adj : List (Nat × List Nat)} {k : Nat} (hk : k ∈ mkeys adj) :
    mfind adj k = some (depsOf adj k) := by
  obtain ⟨deps, hdeps⟩ := Option.isSome_iff_exists.1 ((mfind_isSome adj k).2 hk)
  rw [hdeps]
  simp [depsOf, hdeps]

theorem depsOf_not_mem {adj : List (Nat × List Nat)} {k : Nat} (hk : k ∉ mkeys adj) :
    depsOf adj k = [] := by
  rw [depsOf, (mfind_eq_none adj k).2 hk]
  rfl

/-- Loop invariant of the source's Kahn while loop, tied to the state
(queue, inDegree, result). -/
structure KahnInv (adj : List (Nat × List Nat)) (queue : List Nat)
    (inDeg : List (Nat × Int)) (result : List Nat) : Prop where
  nd : (result ++ queue).Nodup
  sub : ∀ x ∈ result ++ queue, x ∈ mkeys adj
  degKeys : mkeys inDeg = mkeys adj
  degVal : ∀ k ∈ mkeys adj, mfind inDeg k =
    some ((((depsOf adj k).filter fun x => decide (x ∉ result)).length : Int))
  k3 : ∀ k ∈ mkeys adj, (k ∈ result ∨ k ∈ queue) ↔ ∀ x ∈ depsOf adj k, x ∈ result
  k4 : ∀ k ∈ queue, ∀ x ∈ depsOf adj k, x ∈ result
  k5 : result.Pairwise (fun a b => b ∉ depsOf adj a)

theorem kahnInv_step (adj : List (Nat × List Nat))
    (hknd : (mkeys adj).Nodup)
    (hdeps : ∀ p ∈ adj, p.2.Nodup ∧ ∀ x ∈ p.2, x ∈ mkeys adj)
    (current : Nat) (queue : List Nat) (inDeg : List (Nat × Int)) (result : List Nat)
    (hinv : KahnInv adj (current :: queue) inDeg result) :
    KahnInv adj (queue ++ (decrementPass current adj inDeg).2)
      (decrementPass current adj inDeg).1 (result ++ [current]) := by
  have hdepsOf : ∀ k ∈ mkeys adj,
      (depsOf adj k).Nodup ∧ ∀ x ∈ depsOf adj k, x ∈ mkeys adj :=
    fun k hk => hdeps _ (mfind_eq_some_mem (depsOf_mem hk))
  have hcurK : current ∈ mkeys adj := hinv.sub current (by simp)
  have hcurR : current ∉ result :=
    fun hc => (List.disjoint_of_nodup_append hinv.nd) hc (by simp)
  have hzs : ∀ t, t ∈ (decrementPass current adj inDeg).2 ↔
      (t ∈ mkeys adj ∧ current ∈ depsOf adj t ∧
        ((((depsOf adj t).filter fun x => decide (x ∉ result ++ [current])).length : Int)
          = 0)) := by
    intro t
    rw [decrementPass_zs current adj inDeg t hknd]
    constructor
    · rintro ⟨deps, h1, h2, h3⟩
      have ht : t ∈ mkeys adj := by rw [← mfind_isSome, h1]; rfl
      have hdt : deps = depsOf adj t := by rw [depsOf, h1]; rfl
      subst hdt
      refine ⟨ht, h2, ?_⟩
      rw [hinv.degVal t ht] at h3
      simp only [Option.getD_some] at h3
      rw [filter_snoc_length (hdepsOf t ht).1 hcurR, if_pos h2]
      exact h3
    · rintro ⟨ht, h2, h3⟩
      refine ⟨depsOf adj t, depsOf_mem ht, h2, ?_⟩
      rw [hinv.degVal t ht]
      simp only [Option.getD_some]
      rw [filter_snoc_length (hdepsOf t ht).1 hcurR, if_pos h2] at h3
      exact h3
  have hzsnodup : (decrementPass current adj inDeg).2.Nodup :=
    hknd.sublist (decrementPass_zs_sublist current adj inDeg)
  have hzdisj : ∀ t ∈ (decrementPass current adj inDeg).2,
      t ∉ result ∧ t ≠ current ∧ t ∉ queue := by
    intro t ht
    obtain ⟨htk, htc, _⟩ := (hzs t).1 ht
    have hnotin : ¬ (t ∈ result ∨ t ∈ current :: queue) := by
      intro hmem
      exact hcurR ((hinv.k3 t htk).1 hmem current htc)
    exact ⟨fun h => hnotin (Or.inl h), fun h => hnotin (Or.inr (by simp [h])),
      fun h => hnotin (Or.inr (by simp [h]))⟩
  have hdv : ∀ k, k ∈ mkeys adj →
      mfind (decrementPass current adj inDeg).1 k =
        if current ∈ depsOf adj k then some ((mfind inDeg k).getD 0 - 1)
        else mfind inDeg k := by
    intro k hk
    rw [decrementPass_find current adj inDeg k hknd, depsOf_mem hk]
  have hlen0 : ∀ k, ((((depsOf adj k).filter
        fun x => decide (x ∉ result ++ [current])).length : Int) = 0 ↔
      ∀ x ∈ depsOf adj k, x ∈ result ++ [current]) := by
    intro k
    rw [Nat.cast_eq_zero, List.length_eq_zero, List.filter_eq_nil_iff]
    constructor
    · intro h x hx
      by_contra hc
      exact h x hx (by simpa using hc)
    · intro h x hx hc
      exact (by simpa using hc : x ∉ result ++ [current]) (h x hx)
  refine ⟨?_, ?_, ?_, ?_, ?_, ?_, ?_⟩
  · have heq : (result ++ [current]) ++ (queue ++ (decrementPass current adj inDeg).2) =
        (result ++ current :: queue) ++ (decrementPass current adj inDeg).2 := by
      simp
    rw [heq, List.nodup_append]
    refine ⟨hinv.nd, hzsnodup, ?_⟩
    intro a ha ha'
    obtain ⟨h1, h2, h3⟩ := hzdisj a ha'
    rcases List.mem_append.1 ha with h | h
    · exact h1 h
    · rcases List.mem_cons.1 h with h | h
      · exact h2 h
      · exact h3 h
  · intro x hx
    rcases List.mem_append.1 hx with h | h
    · rcases List.mem_append.1 h with h | h
      · exact hinv.sub x (by simp [h])
      · simp only [List.mem_singleton] at h
        exact h ▸ hcurK
    · rcases List.mem_append.1 h with h | h
      · exact hinv.sub x (by simp [h])
      · exact ((hzs x).1 h).1
  · rw [decrementPass_keys current adj inDeg
      (fun k hk => by rw [hinv.degKeys]; exact hk), hinv.degKeys]
  · intro k hk
    rw [hdv k hk, hinv.degVal k hk]
    have harith := filter_snoc_length (hdepsOf k hk).1 hcurR
    by_cases hcd : current ∈ depsOf adj k
    · rw [if_pos hcd]
      simp only [Option.getD_some]
      congr 1
      rw [harith, if_pos hcd]
    · rw [if_neg hcd]
      congr 1
      rw [harith, if_neg hcd]
      ring
  · intro k hk
    constructor
    · intro hmem x hx
      rcases hmem with h | h
      · rcases List.mem_append.1 h with h | h
        · have := (hinv.k3 k hk).1 (Or.inl h) x hx
          exact List.mem_append.2 (Or.inl this)
        · simp only [List.mem_singleton] at h
          subst h
          exact List.mem_append.2 (Or.inl ((hinv.k3 k hk).1 (Or.inr (by simp)) x hx))
      · rcases List.mem_append.1 h with h | h
        · exact List.mem_append.2 (Or.inl ((hinv.k3 k hk).1 (Or.inr (by simp [h])) x hx))
        · exact (hlen0 k).1 ((hzs k).1 h).2.2 x hx
    · intro hall
      by_cases hallr : ∀ x ∈ depsOf adj k, x ∈ result
      · rcases (hinv.k3 k hk).2 hallr with h | h
        · exact Or.inl (List.mem_append.2 (Or.inl h))
        · rcases List.mem_cons.1 h with h | h
          · exact Or.inl (List.mem_append.2 (Or.inr (by simp [h])))
          · exact Or.inr (List.mem_append.2 (Or.inl h))
      · push_neg at hallr
        obtain ⟨x, hx, hxr⟩ := hallr
        have hxc : x = current := by
          rcases List.mem_append.1 (hall x hx) with h | h
          · exact absurd h hxr
          · simpa using h
        subst hxc
        refine Or.inr (List.mem_append.2 (Or.inr ((hzs k).2 ⟨hk, hx, ?_⟩)))
        exact (hlen0 k).2 hall
  · intro k hk x hx
    rcases List.mem_append.1 hk with h | h
    · have := hinv.k4 k (by simp [h]) x hx
      exact List.mem_append.2 (Or.inl this)
    · exact (hlen0 k).1 ((hzs k).1 h).2.2 x hx
  · rw [List.pairwise_append]
    refine ⟨hinv.k5, by simp, ?_⟩
    intro a ha b hb
    simp only [List.mem_singleton] at hb
    subst hb
    intro hmem
    exact hcurR ((hinv.k3 a (hinv.sub a (by simp [ha]))).1 (Or.inl ha) b hmem)

theorem kahnLoop_master (adj : List (Nat × List Nat))
    (hknd : (mkeys adj).Nodup)
    (hdeps : ∀ p ∈ adj, p.2.Nodup ∧ ∀ x ∈ p.2, x ∈ mkeys adj) :
    ∀ fuel queue inDeg result,
      KahnInv adj queue inDeg result →
      (mkeys adj).length - result.length + 1 ≤ fuel →
      (kahnLoop adj fuel queue inDeg result).Nodup ∧
      (∀ x ∈ kahnLoop adj fuel queue inDeg result, x ∈ mkeys adj) ∧
      (kahnLoop adj fuel queue inDeg result).Pairwise (fun a b => b ∉ depsOf adj a) ∧
      (Acyclic adj → ∀ k ∈ mkeys adj, k ∈ kahnLoop adj fuel queue inDeg result) := by
  intro fuel
  induction fuel with
  | zero => intro queue inDeg result _ hfuel; omega
  | succ fuel ih =>
    intro queue inDeg result hinv hfuel
    have hdepsOf : ∀ k ∈ mkeys adj,
        (depsOf adj k).Nodup ∧ ∀ x ∈ depsOf adj k, x ∈ mkeys adj :=
      fun k hk => hdeps _ (mfind_eq_some_mem (depsOf_mem hk))
    cases queue with
    | nil =>
      rw [kahnLoop]
      have hres_nd : result.Nodup := by simpa using hinv.nd
      refine ⟨hres_nd, fun x hx => hinv.sub x (by simp [hx]), hinv.k5, ?_⟩
      intro hacyc k hk
      by_contra hkr
      have hkU : k ∈ (mkeys adj).filter (fun x => decide (x ∉ result)) :=
        List.mem_filter.2 ⟨hk, by simpa using hkr⟩
      have hne : (mkeys adj).filter (fun x => decide (x ∉ result)) ≠ [] := by
        intro h
        rw [h] at hkU
        cases hkU
      have hstep : ∀ x ∈ (mkeys adj).filter (fun x => decide (x ∉ result)),
          ∃ y, y ∈ (mkeys adj).filter (fun x => decide (x ∉ result)) ∧ edgeOf adj x y := by
        intro x hx
        have hx1 := (List.mem_filter.1 hx).1
        have hx2 : x ∉ result := by simpa using (List.mem_filter.1 hx).2
        have hnall : ¬ ∀ d ∈ depsOf adj x, d ∈ result := by
          intro hall
          rcases (hinv.k3 x hx1).2 hall with h | h
          · exact hx2 h
          · cases h
        push_neg at hnall
        obtain ⟨d, hd, hdr⟩ := hnall
        exact ⟨d, List.mem_filter.2 ⟨(hdepsOf x hx1).2 d hd, by simpa using hdr⟩, hd⟩
      obtain ⟨c, hc⟩ := cycle_of_no_escape (edgeOf adj) _ hne hstep
      exact hacyc c hc
    | cons current rest =>
      rw [kahnLoop]
      have hinv' := kahnInv_step adj hknd hdeps current rest inDeg result hinv
      have hlen : result.length + 1 ≤ (mkeys adj).length := by
        have hsp := (List.subperm_of_subset hinv.nd hinv.sub).length_le
        rw [List.length_append, List.length_cons] at hsp
        omega
      have hfuel' : (mkeys adj).length - (result ++ [current]).length + 1 ≤ fuel := by
        rw [List.length_append, List.length_singleton]
        omega
      exact ih (rest ++ (decrementPass current adj inDeg).2)
        (decrementPass current adj inDeg).1 (result ++ [current]) hinv' hfuel'

theorem mfind_fun_map {A : Type} (f : Nat → A) :
    ∀ (ks : List Nat), ks.Nodup → ∀ k ∈ ks,
      mfind (ks.map fun x => (x, f x)) k = some (f k) := by
  intro ks
  induction ks with
  | nil => intro _ k hk; cases hk
  | cons a rest ih =>
    intro hnd k hk
    rw [List.map_cons, mfind_cons]
    rcases List.mem_cons.1 hk with h | h
    · subst h; simp
    · have hne : a ≠ k := by
        intro he
        exact (List.nodup_cons.1 hnd).1 (he ▸ h)
      rw [if_neg hne]
      exact ih (List.nodup_cons.1 hnd).2 k h

theorem topologicalSort_init_inv (g : DependencyGraph) (hwf : WellFormed g) :
    KahnInv g.adjacencyList
      (((buildInDegree g).filter fun p => p.2 == 0).map (fun p => p.1))
      (buildInDegree g) [] := by
  obtain ⟨hnd, hadjk, hpdeps⟩ := hwf
  have hq : ((buildInDegree g).filter fun p => p.2 == 0).map (fun p => p.1) =
      (mkeys g.nodes).filter
        (fun k => (((depsOf g.adjacencyList k).length : Int) == 0)) := by
    rw [buildInDegree_eq g ⟨hnd, hadjk, hpdeps⟩, List.filter_map, List.map_map]
    exact List.map_id'' (fun x => rfl) _
  have hqmem : ∀ k, k ∈ ((buildInDegree g).filter fun p => p.2 == 0).map (fun p => p.1) ↔
      (k ∈ mkeys g.nodes ∧ depsOf g.adjacencyList k = []) := by
    intro k
    rw [hq, List.mem_filter]
    constructor
    · rintro ⟨h1, h2⟩
      simp only [beq_iff_eq, Nat.cast_eq_zero, List.length_eq_zero] at h2
      exact ⟨h1, h2⟩
    · rintro ⟨h1, h2⟩
      exact ⟨h1, by simp [h2]⟩
  refine ⟨?_, ?_, ?_, ?_, ?_, ?_, by simp⟩
  · rw [List.nil_append, hq]
    exact hnd.filter _
  · intro x hx
    rw [List.nil_append] at hx
    rw [hadjk]
    exact ((hqmem x).1 hx).1
  · rw [buildInDegree_eq g ⟨hnd, hadjk, hpdeps⟩, hadjk]
    simp [mkeys, List.map_map]
  · intro k hk
    rw [buildInDegree_eq g ⟨hnd, hadjk, hpdeps⟩]
    rw [hadjk] at hk
    rw [mfind_fun_map _ _ hnd k hk]
    congr 2
    rw [List.filter_eq_self.2]
    intro a _
    simp
  · intro k hk
    rw [hadjk] at hk
    constructor
    · intro hmem x hx
      rcases hmem with h | h
      · cases h
      · rw [(hqmem k).1 h |>.2] at hx
        cases hx
    · intro hall
      refine Or.inr ((hqmem k).2 ⟨hk, ?_⟩)
      rw [List.eq_nil_iff_forall_not_mem]
      intro x hx
      exact absurd (hall x hx) (List.not_mem_nil x)
  · intro k hk x hx
    rw [(hqmem k).1 hk |>.2] at hx
    cases hx

theorem topologicalSort_master (g : DependencyGraph) (hwf : WellFormed g) :
    (topologicalSort g).Nodup ∧
    (∀ x ∈ topologicalSort g, x ∈ mkeys g.nodes) ∧
    (topologicalSort g).Pairwise (fun a b => b ∉ depsOf g.adjacencyList a) ∧
    (Acyclic g.adjacencyList → ∀ k ∈ mkeys g.nodes, k ∈ topologicalSort g) := by
  have hknd : (mkeys g.adjacencyList).Nodup := by rw [hwf.2.1]; exact hwf.1
  have hdeps : ∀ p ∈ g.adjacencyList, p.2.Nodup ∧ ∀ x ∈ p.2, x ∈ mkeys g.adjacencyList := by
    intro p hp
    refine ⟨(hwf.2.2 p hp).1, fun x hx => ?_⟩
    rw [hwf.2.1]
    exact (hwf.2.2 p hp).2 x hx
  have hfuel : (mkeys g.adjacencyList).length - ([] : List Nat).length + 1 ≤
      g.nodes.length + g.adjacencyList.length + 1 := by
    have : (mkeys g.adjacencyList).length = g.adjacencyList.length := List.length_map _ _
    omega
  have hmain := kahnLoop_master g.adjacencyList hknd hdeps
    (g.nodes.length + g.adjacencyList.length + 1)
    (((buildInDegree g).filter fun p => p.2 == 0).map (fun p => p.1))
    (buildInDegree g) [] (topologicalSort_init_inv g hwf) hfuel
  have heq : topologicalSort g = kahnLoop g.adjacencyList
      (g.nodes.length + g.adjacencyList.length + 1)
      (((buildInDegree g).filter fun p => p.2 == 0).map (fun p => p.1))
      (buildInDegree g) [] := rfl
  rw [heq]
  refine ⟨hmain.1, ?_, hmain.2.2.1, ?_⟩
  · intro x hx
    rw [← hwf.2.1]
    exact hmain.2.1 x hx
  · intro hacyc k hk
    rw [← hwf.2.1] at hk
    exact hmain.2.2.2 hacyc k hk

/-- The prerequisite-first ordering property: wherever the order splits
around a node, all of that node's dependencies appear strictly earlier. -/
def topoOrdered (adj : List (Nat × List Nat)) (order : List Nat) : Prop :=
  ∀ p k q, order = p ++ k :: q → ∀ x ∈ depsOf adj k, x ∈ p

theorem topologicalSort_perm (g : DependencyGraph) (hwf : WellFormed g)
    (hacyc : Acyclic g.adjacencyList) :
    (topologicalSort g).Perm (mkeys g.nodes) := by
  obtain ⟨hnd2, hsub, _, hcompl⟩ := topologicalSort_master g hwf
  rw [List.perm_ext_iff_of_nodup hnd2 hwf.1]
  intro a
  exact ⟨fun h => hsub a h, fun h => hcompl hacyc a h⟩

theorem topologicalSort_ordered (g : DependencyGraph) (hwf : WellFormed g)
    (hacyc : Acyclic g.adjacencyList) :
    topoOrdered g.adjacencyList (topologicalSort g) := by
  obtain ⟨_, hsub, hpw, hcompl⟩ := topologicalSort_master g hwf
  intro p k q heq x hx
  have hkmem : k ∈ topologicalSort g := by rw [heq]; simp
  have hkK : k ∈ mkeys g.nodes := hsub k hkmem
  have hkadj : k ∈ mkeys g.adjacencyList := by rw [hwf.2.1]; exact hkK
  have hxK : x ∈ mkeys g.nodes :=
    (hwf.2.2 _ (mfind_eq_some_mem (depsOf_mem hkadj))).2 x hx
  have hxorder : x ∈ topologicalSort g := hcompl hacyc x hxK
  rw [heq] at hxorder
  rcases List.mem_append.1 hxorder with h | h
  · exact h
  · exfalso
    rcases List.mem_cons.1 h with h | h
    · subst h
      exact absurd (Relation.TransGen.single (hx : edgeOf _ x x)) (hacyc x)
    · rw [heq] at hpw
      have hpw2 := (List.pairwise_append.1 hpw).2.1
      exact absurd hx ((List.pairwise_cons.1 hpw2).1 x h)

/-! ### C3 and C4: the topological sort -/

/-- C3: on every well-formed acyclic graph the new topologicalSort (Kahn's
algorithm, in-degree = number of prerequisites) returns each node exactly
once (a permutation of the node keys) and places every prerequisite before
every node that depends on it. -/
theorem topologicalSort_correct (g : DependencyGraph) (hwf : WellFormed g)
    (hacyc : Acyclic g.adjacencyList) :
    (topologicalSort g).Perm (mkeys g.nodes) ∧
    topoOrdered g.adjacencyList (topologicalSort g) :=
  ⟨topologicalSort_perm g hwf hacyc, topologicalSort_ordered g hwf hacyc⟩

/-- Witness for C3 at Scenario A. -/
theorem topologicalSort_correct_witness :
    WellFormed exGraphA ∧ Acyclic exGraphA.adjacencyList ∧
      ((topologicalSort exGraphA).Perm (mkeys exGraphA.nodes) ∧
        topoOrdered exGraphA.adjacencyList (topologicalSort exGraphA)) :=
  ⟨by decide, acyclic_of_rank _ (fun k => k) (by decide),
    topologicalSort_correct exGraphA (by decide)
      (acyclic_of_rank _ (fun k => k) (by decide))⟩

/-- C4: only the prerequisite-counting variant of topologicalSort is
correct for the CPM forward pass: the new variant sorts every well-formed
acyclic graph prerequisite-first, while the old dependent-counting variant
already fails on the two-task chain (1 depends on 2), emitting [1, 2] where
the new variant emits [2, 1]; the two variants are not equivalent. -/
theorem topologicalSort_variants :
    (∀ g : DependencyGraph, WellFormed g → Acyclic g.adjacencyList →
      ((topologicalSort g).Perm (mkeys g.nodes) ∧
        topoOrdered g.adjacencyList (topologicalSort g))) ∧
    oldTopologicalSort exGraphChain = [1, 2] ∧
    topologicalSort exGraphChain = [2, 1] ∧
    ¬ topoOrdered exGraphChain.adjacencyList (oldTopologicalSort exGraphChain) := by
  refine ⟨fun g hwf hacyc =>
    ⟨topologicalSort_perm g hwf hacyc, topologicalSort_ordered g hwf hacyc⟩,
    by decide, by decide, ?_⟩
  intro h
  have h2 := h [] 1 [2] (by decide) 2 (by decide)
  exact absurd h2 (List.not_mem_nil 2)

/-! ### CPM forward and backward pass -/

theorem foldl_max_le_self : ∀ (xs : List Int) (x : Int), x ≤ xs.foldl max x := by
  intro xs
  induction xs with
  | nil => intro x; exact le_refl x
  | cons y ys ih => intro x; exact le_trans (le_max_left x y) (ih (max x y))

theorem foldl_max_le_mem : ∀ (xs : List Int) (x : Int), ∀ y ∈ xs, y ≤ xs.foldl max x := by
  intro xs
  induction xs with
  | nil => intro x y hy; cases hy
  | cons z zs ih =>
    intro x y hy
    rcases List.mem_cons.1 hy with h | h
    · subst h
      exact le_trans (le_max_right x y) (foldl_max_le_self zs (max x y))
    · exact ih (max x z) y h

theorem foldl_max_mem : ∀ (xs : List Int) (x : Int),
    xs.foldl max x = x ∨ xs.foldl max x ∈ xs := by
  intro xs
  induction xs with
  | nil => intro x; exact Or.inl rfl
  | cons z zs ih =>
    intro x
    rcases ih (max x z) with h | h
    · rcases max_choice x z with h2 | h2
      · exact Or.inl (by rw [List.foldl_cons, h, h2])
      · exact Or.inr (by rw [List.foldl_cons, h, h2]; simp)
    · exact Or.inr (by simp [h])

theorem maxIntList_spec {l : List Int} (h : l ≠ []) :
    maxIntList l ∈ l ∧ ∀ y ∈ l, y ≤ maxIntList l := by
  cases l with
  | nil => exact absurd rfl h
  | cons x xs =>
    constructor
    · rcases foldl_max_mem xs x with h2 | h2
      · rw [maxIntList, h2]; simp
      · rw [maxIntList]; exact List.mem_cons_of_mem _ h2
    · intro y hy
      rcases List.mem_cons.1 hy with h2 | h2
      · subst h2; exact foldl_max_le_self xs y
      · exact foldl_max_le_mem xs x y h2

theorem maxIntList_perm {l l' : List Int} (h : l.Perm l') : maxIntList l = maxIntList l' := by
  cases hl : l with
  | nil =>
    rw [hl] at h
    rw [h.nil_eq]
  | cons x xs =>
    have hne : l ≠ [] := by rw [hl]; exact List.cons_ne_nil x xs
    have hne' : l' ≠ [] := by
      intro h2
      rw [h2] at h
      exact hne h.eq_nil
    rw [← hl]
    obtain ⟨hm1, hb1⟩ := maxIntList_spec hne
    obtain ⟨hm2, hb2⟩ := maxIntList_spec hne'
    exact le_antisymm (hb2 _ (h.mem_iff.1 hm1)) (hb1 _ (h.mem_iff.2 hm2))

theorem foldl_maxfn_le (v : Nat → Int) :
    ∀ (l : List Nat) (a : Int), (∀ d ∈ l, v d ≤ l.foldl (fun acc x => max acc (v x)) a) ∧
      a ≤ l.foldl (fun acc x => max acc (v x)) a := by
  intro l
  induction l with
  | nil => intro a; exact ⟨fun d hd => absurd hd (List.not_mem_nil d), le_refl a⟩
  | cons z zs ih =>
    intro a
    constructor
    · intro d hd
      rcases List.mem_cons.1 hd with h | h
      · subst h
        exact le_trans (le_max_right a (v d)) (ih (max a (v d))).2
      · exact (ih (max a (v z))).1 d h
    · exact le_trans (le_max_left a (v z)) (ih (max a (v z))).2

theorem forwardPass_preserve (g : DependencyGraph) :
    ∀ (rest : List Nat) (eT eF : List (Nat × Int)) (k : Nat), k ∉ rest →
      mfind (forwardPass g rest eT eF).1 k = mfind eT k ∧
      mfind (forwardPass g rest eT eF).2 k = mfind eF k := by
  intro rest
  induction rest with
  | nil => intro eT eF k _; exact ⟨rfl, rfl⟩
  | cons n rest ih =>
    intro eT eF k hk
    have hkn : k ≠ n := fun h => hk (by simp [h])
    have hkr : k ∉ rest := fun h => hk (by simp [h])
    rw [forwardPass]
    obtain ⟨h1, h2⟩ := ih _ _ k hkr
    rw [h1, h2, mfind_mset_ne _ _ _ hkn, mfind_mset_ne _ _ _ hkn]
    exact ⟨rfl, rfl⟩

theorem forwardPass_keys (g : DependencyGraph) :
    ∀ (rest : List Nat) (eT eF : List (Nat × Int)),
      (∀ n ∈ rest, n ∈ mkeys eT) → rest.Nodup → (∀ n ∈ rest, n ∉ mkeys eF) →
      mkeys (forwardPass g rest eT eF).1 = mkeys eT ∧
      mkeys (forwardPass g rest eT eF).2 = mkeys eF ++ rest := by
  intro rest
  induction rest with
  | nil => intro eT eF _ _ _; exact ⟨rfl, by simp [forwardPass]⟩
  | cons n rest ih =>
    intro eT eF hT hnd hF
    rw [forwardPass]
    set es := (depsOf g.adjacencyList n).foldl
      (fun acc depId => max acc ((mfind eF depId).getD 0)) ((mfind eT n).getD 0)
    have hTkeys : mkeys (mset eT n es) = mkeys eT :=
      mkeys_mset_mem es (hT n (by simp))
    have hFkeys : mkeys (mset eF n (es + nodeDuration g n)) = mkeys eF ++ [n] :=
      mkeys_mset_not_mem _ (hF n (by simp))
    obtain ⟨ih1, ih2⟩ := ih (mset eT n es) (mset eF n (es + nodeDuration g n))
      (fun m hm => by rw [hTkeys]; exact hT m (by simp [hm]))
      (List.nodup_cons.1 hnd).2
      (fun m hm => by
        rw [hFkeys]
        simp only [List.mem_append, List.mem_singleton, not_or]
        exact ⟨hF m (by simp [hm]), fun he => (List.nodup_cons.1 hnd).1 (he ▸ hm)⟩)
    rw [ih1, ih2, hTkeys, hFkeys]
    exact ⟨rfl, by simp⟩

theorem forwardPass_final (g : DependencyGraph) :
    ∀ (rest : List Nat) (eT eF : List (Nat × Int)), rest.Nodup → ∀ k ∈ rest,
      ∃ es, mfind (forwardPass g rest eT eF).1 k = some es ∧
        mfind (forwardPass g rest eT eF).2 k = some (es + nodeDuration g k) := by
  intro rest
  induction rest with
  | nil => intro eT eF _ k hk; cases hk
  | cons n rest ih =>
    intro eT eF hnd k hk
    rw [forwardPass]
    rcases List.mem_cons.1 hk with h | h
    · subst h
      have hkr : k ∉ rest := (List.nodup_cons.1 hnd).1
      obtain ⟨h1, h2⟩ := forwardPass_preserve g rest _ _ k hkr
      rw [h1, h2, mfind_mset_self, mfind_mset_self]
      exact ⟨_, rfl, rfl⟩
    · exact ih _ _ (List.nodup_cons.1 hnd).2 k h

theorem forwardPass_ineq (g : DependencyGraph) :
    ∀ (pre suf : List Nat) (eT eF : List (Nat × Int)) (k : Nat),
      (pre ++ k :: suf).Nodup →
      ∀ d ∈ depsOf g.adjacencyList k, d ∉ k :: suf →
        (mfind (forwardPass g (pre ++ k :: suf) eT eF).2 d).getD 0 ≤
          (mfind (forwardPass g (pre ++ k :: suf) eT eF).1 k).getD 0 := by
  intro pre
  induction pre with
  | nil =>
    intro suf eT eF k hnd d hd hdk
    rw [List.nil_append] at hnd ⊢
    rw [forwardPass]
    have hdn : d ≠ k := fun h => hdk (by simp [h])
    have hds : d ∉ suf := fun h => hdk (by simp [h])
    have hkns : k ∉ suf := (List.nodup_cons.1 hnd).1
    obtain ⟨hk1, _⟩ := forwardPass_preserve g suf _ _ k hkns
    obtain ⟨_, hd2⟩ := forwardPass_preserve g suf _ _ d hds
    rw [hk1, hd2, mfind_mset_self, mfind_mset_ne _ _ _ hdn]
    simp only [Option.getD_some]
    exact (foldl_maxfn_le (fun x => (mfind eF x).getD 0) (depsOf g.adjacencyList k)
      ((mfind eT k).getD 0)).1 d hd
  | cons n pre ih =>
    intro suf eT eF k hnd d hd hdk
    rw [List.cons_append] at hnd ⊢
    rw [forwardPass]
    exact ih suf _ _ k (List.nodup_cons.1 hnd).2 d hd hdk

theorem mem_successorsOf {adj : List (Nat × List Nat)} (hknd : (mkeys adj).Nodup)
    {k s : Nat} :
    s ∈ successorsOf adj k ↔ s ∈ mkeys adj ∧ k ∈ depsOf adj s := by
  unfold successorsOf
  rw [List.mem_map]
  constructor
  · rintro ⟨p, hp, rfl⟩
    have hp2 := List.mem_filter.1 hp
    have hkey : p.1 ∈ mkeys adj := (mem_mkeys adj p.1).2 ⟨p.2, by
      obtain ⟨a, b⟩ := p
      exact hp2.1⟩
    refine ⟨hkey, ?_⟩
    have hfind : mfind adj p.1 = some p.2 := mfind_of_mem_nodup hknd (by
      obtain ⟨a, b⟩ := p
      exact hp2.1)
    rw [depsOf, hfind]
    exact (by simpa using hp2.2 : k ∈ p.2)
  · rintro ⟨hs, hk⟩
    refine ⟨(s, depsOf adj s), List.mem_filter.2 ⟨mfind_eq_some_mem (depsOf_mem hs), by
      simpa using hk⟩, rfl⟩

theorem minDefined_ge (lT : List (Nat × Int)) (bound : Int) :
    ∀ (succs : List Nat) (acc : Option Int),
      (∀ s ∈ succs, ∀ v, mfind lT s = some v → bound ≤ v) →
      (∀ a, acc = some a → bound ≤ a) →
      ∀ m, succs.foldl
        (fun acc s =>
          match mfind lT s with
          | none => acc
          | some v =>
            match acc with
            | none => some v
            | some mm => some (min mm v))
        acc = some m → bound ≤ m := by
  intro succs
  induction succs with
  | nil => intro acc _ hacc m hm; exact hacc m hm
  | cons s ss ih =>
    intro acc hall hacc m hm
    rw [List.foldl_cons] at hm
    rcases hfs : mfind lT s with _ | v
    · rw [hfs] at hm
      exact ih acc (fun s' h => hall s' (by simp [h])) hacc m hm
    · rw [hfs] at hm
      have hbv : bound ≤ v := hall s (by simp) v hfs
      rcases acc with _ | a
      · refine ih (some v) (fun s' h => hall s' (by simp [h])) ?_ m hm
        intro a ha
        have hva : v = a := Option.some_inj.1 ha
        rw [← hva]
        exact hbv
      · refine ih (some (min a v)) (fun s' h => hall s' (by simp [h])) ?_ m hm
        intro b hb
        rw [← Option.some_inj.1 hb]
        exact le_min (hacc a rfl) hbv

theorem minDefined_isSome (lT : List (Nat × Int)) :
    ∀ (succs : List Nat) (acc : Option Int),
      (∀ s ∈ succs, (mfind lT s).isSome) →
      (succs ≠ [] ∨ acc.isSome) →
      (succs.foldl
        (fun acc s =>
          match mfind lT s with
          | none => acc
          | some v =>
            match acc with
            | none => some v
            | some mm => some (min mm v))
        acc).isSome := by
  intro succs
  induction succs with
  | nil =>
    intro acc _ h
    rcases h with h | h
    · exact absurd rfl h
    · exact h
  | cons s ss ih =>
    intro acc hall h
    rw [List.foldl_cons]
    obtain ⟨v, hv⟩ := Option.isSome_iff_exists.1 (hall s (by simp))
    rw [hv]
    rcases acc with _ | a
    · exact ih (some v) (fun s' h' => hall s' (by simp [h'])) (Or.inr rfl)
    · exact ih (some (min a v)) (fun s' h' => hall s' (by simp [h'])) (Or.inr rfl)

theorem backwardPass_master (g : DependencyGraph) (E : Nat → Int) (pd : Int)
    (hknd : (mkeys g.adjacencyList).Nodup)
    (hE2 : ∀ s ∈ mkeys g.adjacencyList, ∀ k ∈ depsOf g.adjacencyList s,
      E k + nodeDuration g k ≤ E s)
    (hnoself : ∀ k, ¬ edgeOf g.adjacencyList k k) :
    ∀ (rest done : List Nat) (lT lF : List (Nat × Int)),
      (done ++ rest).Nodup →
      (∀ k ∈ rest, k ∈ mkeys g.nodes) →
      (done ++ rest).Pairwise (fun a b => a ∉ depsOf g.adjacencyList b) →
      (∀ k ∈ rest, ∀ s ∈ successorsOf g.adjacencyList k, s ∈ done ++ rest) →
      (∀ s ∈ done, ∃ v, mfind lT s = some v ∧ E s ≤ v) →
      (∀ s, s ∉ done → mfind lT s = none) →
      (∀ k ∈ mkeys g.nodes, k ∉ done → mfind lF k = some pd) →
      (∀ k ∈ rest, E k + nodeDuration g k ≤ pd) →
      ∀ s ∈ done ++ rest,
        ∃ v, mfind (backwardPass g rest lT lF).1 s = some v ∧ E s ≤ v := by
  intro rest
  induction rest with
  | nil =>
    intro done lT lF _ _ _ _ hH1 _ _ _ s hs
    rw [List.append_nil] at hs
    exact hH1 s hs
  | cons n rest ih =>
    intro done lT lF hnd hkeys hpw hsuccmem hH1 hH2 hH3 hpd
    have hnotdone : n ∉ done := by
      intro h
      exact (List.disjoint_of_nodup_append hnd) h (by simp)
    have hsuccdone : ∀ s ∈ successorsOf g.adjacencyList n, s ∈ done := by
      intro s hs
      have hsk := (mem_successorsOf hknd).1 hs
      rcases List.mem_append.1 (hsuccmem n (by simp) s hs) with h | h
      · exact h
      · exfalso
        rcases List.mem_cons.1 h with h2 | h2
        · subst h2
          exact hnoself s hsk.2
        · have hpw2 := (List.pairwise_append.1 hpw).2.1
          exact ((List.pairwise_cons.1 hpw2).1 s h2) hsk.2
    set lF' := (if (successorsOf g.adjacencyList n).length > 0 then
        match minDefined lT (successorsOf g.adjacencyList n) with
        | some v => mset lF n v
        | none => lF
      else lF) with hlF'
    set lT' := mset lT n ((mfind lF' n).getD 0 - nodeDuration g n) with hlT'
    have hunfold : backwardPass g (n :: rest) lT lF = backwardPass g rest lT' lF' := rfl
    have hfn : mfind lT' n = some ((mfind lF' n).getD 0 - nodeDuration g n) := by
      rw [hlT']
      exact mfind_mset_self _ _ _
    have hfne : ∀ k, k ≠ n → mfind lT' k = mfind lT k := by
      intro k hk
      rw [hlT']
      exact mfind_mset_ne _ _ _ hk
    have hlFn : ∀ k, k ≠ n → mfind lF' k = mfind lF k := by
      intro k hk
      rw [hlF']
      by_cases hsucc : (successorsOf g.adjacencyList n).length > 0
      · rw [if_pos hsucc]
        rcases hmd : minDefined lT (successorsOf g.adjacencyList n) with _ | v
        · rfl
        · exact mfind_mset_ne _ _ _ hk
      · rw [if_neg hsucc]
    have hbound : E n ≤ (mfind lF' n).getD 0 - nodeDuration g n := by
      rw [hlF']
      by_cases hsucc : (successorsOf g.adjacencyList n).length > 0
      · have hne : successorsOf g.adjacencyList n ≠ [] := by
          intro h
          rw [h] at hsucc
          simp at hsucc
        have hallsome : ∀ s ∈ successorsOf g.adjacencyList n, (mfind lT s).isSome := by
          intro s hs
          obtain ⟨v, hv, _⟩ := hH1 s (hsuccdone s hs)
          rw [hv]
          rfl
        have hsome := minDefined_isSome lT (successorsOf g.adjacencyList n) none
          hallsome (Or.inl hne)
        obtain ⟨m, hm⟩ := Option.isSome_iff_exists.1 hsome
        have hmge : E n + nodeDuration g n ≤ m := by
          refine minDefined_ge lT (E n + nodeDuration g n)
            (successorsOf g.adjacencyList n) none ?_ (fun a ha => by cases ha) m hm
          intro s hs v hv
          obtain ⟨v', hv', he'⟩ := hH1 s (hsuccdone s hs)
          rw [hv'] at hv
          obtain rfl := Option.some_inj.1 hv
          have hsk := (mem_successorsOf hknd).1 hs
          exact le_trans (hE2 s hsk.1 n hsk.2) he'
        have hmd : minDefined lT (successorsOf g.adjacencyList n) = some m := hm
        rw [if_pos hsucc, hmd]
        show E n ≤ (mfind (mset lF n m) n).getD 0 - nodeDuration g n
        rw [mfind_mset_self]
        simp only [Option.getD_some]
        omega
      · rw [if_neg hsucc]
        have hlf : mfind lF n = some pd := hH3 n (hkeys n (by simp)) hnotdone
        rw [hlf]
        simp only [Option.getD_some]
        have := hpd n (by simp)
        omega
    rw [hunfold]
    intro s hs
    have hs2 : s ∈ (done ++ [n]) ++ rest := by
      rw [List.append_assoc]
      simpa using hs
    refine ih (done ++ [n]) lT' lF' ?_ ?_ ?_ ?_ ?_ ?_ ?_ ?_ s hs2
    · rw [List.append_assoc]
      simpa using hnd
    · intro k hk
      exact hkeys k (by simp [hk])
    · rw [List.append_assoc]
      simpa using hpw
    · intro k hk s' hs'
      rw [List.append_assoc]
      simpa using hsuccmem k (by simp [hk]) s' hs'
    · intro s' hs'
      rcases List.mem_append.1 hs' with h | h
      · obtain ⟨v, hv, he⟩ := hH1 s' h
        have hsn : s' ≠ n := fun he2 => hnotdone (he2 ▸ h)
        exact ⟨v, by rw [hfne s' hsn]; exact hv, he⟩
      · simp only [List.mem_singleton] at h
        subst h
        exact ⟨_, hfn, hbound⟩
    · intro s' hs'
      simp only [List.mem_append, List.mem_singleton, not_or] at hs'
      rw [hfne s' hs'.2]
      exact hH2 s' hs'.1
    · intro k hk hkd
      simp only [List.mem_append, List.mem_singleton, not_or] at hkd
      rw [hlFn k hkd.2]
      exact hH3 k hk hkd.1
    · intro k hk
      exact hpd k (by simp [hk])

/-! ### Assembling the CPM correctness facts -/

/-- The intermediate values of calculateCriticalPath, named for the proofs:
sorted order, initial earliest map, forward-pass result, project duration,
initial latest-finish map, backward-pass result, and the earliest/latest
start read off the result maps. -/
def cpmFW (g : DependencyGraph) : List (Nat × Int) × List (Nat × Int) :=
  forwardPass g (topologicalSort g) ((mkeys g.nodes).foldl (fun m k => mset m k 0) []) []

def cpmPD (g : DependencyGraph) : Int :=
  projectDurationOf (cpmFW g).2

def cpmBW (g : DependencyGraph) : List (Nat × Int) × List (Nat × Int) :=
  backwardPass g (topologicalSort g).reverse []
    ((mkeys g.nodes).foldl (fun m k => mset m k (cpmPD g)) [])

def cpmE (g : DependencyGraph) (k : Nat) : Int := (mfind (cpmFW g).1 k).getD 0

def cpmL (g : DependencyGraph) (k : Nat) : Int := (mfind (cpmBW g).1 k).getD 0

theorem cpm_earliest_eq (g : DependencyGraph) :
    (calculateCriticalPath g).earliestTimes = (cpmFW g).1 := rfl

theorem cpm_latest_eq (g : DependencyGraph) :
    (calculateCriticalPath g).latestTimes = (cpmBW g).1 := rfl

theorem forward_final_values (g : DependencyGraph) (hwf : WellFormed g) :
    ∀ k ∈ topologicalSort g,
      mfind (cpmFW g).2 k = some (cpmE g k + nodeDuration g k) := by
  intro k hk
  obtain ⟨hnd2, _, _, _⟩ := topologicalSort_master g hwf
  obtain ⟨es, h1, h2⟩ := forwardPass_final g (topologicalSort g)
    ((mkeys g.nodes).foldl (fun m k => mset m k 0) []) [] hnd2 k hk
  unfold cpmE cpmFW
  rw [h2, h1]
  rfl

theorem forward_E_mono (g : DependencyGraph) (hwf : WellFormed g)
    (hacyc : Acyclic g.adjacencyList) :
    ∀ s ∈ mkeys g.adjacencyList, ∀ k ∈ depsOf g.adjacencyList s,
      cpmE g k + nodeDuration g k ≤ cpmE g s := by
  intro s hs k hk
  obtain ⟨hnd2, hsub, hpw, hcompl⟩ := topologicalSort_master g hwf
  have hs' : s ∈ mkeys g.nodes := by rw [← hwf.2.1]; exact hs
  have hsord : s ∈ topologicalSort g := hcompl hacyc s hs'
  obtain ⟨p, q, hsplit⟩ := List.append_of_mem hsord
  have hkp : k ∈ p := topologicalSort_ordered g hwf hacyc p s q hsplit k hk
  have hnd3 : (p ++ s :: q).Nodup := hsplit ▸ hnd2
  have hknotsq : k ∉ s :: q := fun hmem =>
    (List.disjoint_of_nodup_append hnd3) hkp hmem
  have hkord : k ∈ topologicalSort g := by
    rw [hsplit]
    exact List.mem_append.2 (Or.inl hkp)
  have hineq := forwardPass_ineq g p q
    ((mkeys g.nodes).foldl (fun m k => mset m k 0) []) [] s hnd3 k hk hknotsq
  have hF2 := forward_final_values g hwf k hkord
  unfold cpmFW at hF2
  rw [hsplit] at hF2
  rw [hF2] at hineq
  simp only [Option.getD_some] at hineq
  have hgoal : cpmE g s = (mfind (forwardPass g (p ++ s :: q)
      ((mkeys g.nodes).foldl (fun m k => mset m k 0) []) []).1 s).getD 0 := by
    unfold cpmE cpmFW
    rw [hsplit]
  rw [hgoal]
  exact hineq

theorem forward_le_pd (g : DependencyGraph) (hwf : WellFormed g)
    (hacyc : Acyclic g.adjacencyList) :
    ∀ k ∈ mkeys g.nodes, cpmE g k + nodeDuration g k ≤ cpmPD g := by
  intro k hk
  obtain ⟨_, _, _, hcompl⟩ := topologicalSort_master g hwf
  have hkord : k ∈ topologicalSort g := hcompl hacyc k hk
  have hF2 := forward_final_values g hwf k hkord
  have hmem : (k, cpmE g k + nodeDuration g k) ∈ (cpmFW g).2 := mfind_eq_some_mem hF2
  have hval : cpmE g k + nodeDuration g k ∈ (cpmFW g).2.map (fun p => p.2) :=
    List.mem_map.2 ⟨_, hmem, rfl⟩
  have hne : (cpmFW g).2.map (fun p => p.2) ≠ [] := List.ne_nil_of_mem hval
  exact (maxIntList_spec hne).2 _ hval

theorem cpm_le (g : DependencyGraph) (hwf : WellFormed g)
    (hacyc : Acyclic g.adjacencyList) :
    ∀ k ∈ mkeys g.nodes, cpmE g k ≤ cpmL g k := by
  intro k hk
  obtain ⟨hnd2, hsub, hpw, hcompl⟩ := topologicalSort_master g hwf
  have hknd : (mkeys g.adjacencyList).Nodup := by rw [hwf.2.1]; exact hwf.1
  have hlF0 : (mkeys g.nodes).foldl (fun m k => mset m k (cpmPD g)) [] =
      (mkeys g.nodes).map (fun k => (k, cpmPD g)) := by
    rw [foldl_mset_const _ _ [] (by simp [mkeys]) hwf.1]
    rfl
  have hres := backwardPass_master g (cpmE g) (cpmPD g) hknd
    (forward_E_mono g hwf hacyc)
    (fun x hx => hacyc x (Relation.TransGen.single hx))
    (topologicalSort g).reverse [] []
    ((mkeys g.nodes).foldl (fun m k => mset m k (cpmPD g)) [])
    (by simp only [List.nil_append]; exact (List.nodup_reverse).2 hnd2)
    (fun x hx => hsub x (List.mem_reverse.1 hx))
    (by
      simp only [List.nil_append]
      rw [List.pairwise_reverse]
      exact hpw)
    (by
      intro x hx s hs
      simp only [List.nil_append, List.mem_reverse]
      have hsk := (mem_successorsOf hknd).1 hs
      exact hcompl hacyc s (by rw [← hwf.2.1]; exact hsk.1))
    (fun s hs => absurd hs (List.not_mem_nil s))
    (fun s _ => rfl)
    (by
      intro x hx _
      rw [hlF0, mfind_const_map, if_pos hx])
    (fun x hx => forward_le_pd g hwf hacyc x (hsub x (List.mem_reverse.1 hx)))
  have hkrev : k ∈ ([] : List Nat) ++ (topologicalSort g).reverse := by
    simp only [List.nil_append, List.mem_reverse]
    exact hcompl hacyc k hk
  obtain ⟨v, hv, he⟩ := hres k hkrev
  unfold cpmL cpmBW
  rw [hv]
  exact he

/-- C5: on a well-formed acyclic graph with positive integer durations,
every node's earliest start is at most its latest start (slack is never
negative), and the two agree exactly on the nodes of the critical set. -/
theorem calculateCriticalPath_slack (g : DependencyGraph) (hwf : WellFormed g)
    (hacyc : Acyclic g.adjacencyList)
    (_hdur : ∀ p ∈ g.nodes, 1 ≤ p.2.duration) :
    ∀ k ∈ mkeys g.nodes,
      (mfind (calculateCriticalPath g).earliestTimes k).getD 0 ≤
        (mfind (calculateCriticalPath g).latestTimes k).getD 0 ∧
      (k ∈ (calculateCriticalPath g).criticalPathSet ↔
        (mfind (calculateCriticalPath g).earliestTimes k).getD 0 =
          (mfind (calculateCriticalPath g).latestTimes k).getD 0) := by
  intro k hk
  have hE := cpm_le g hwf hacyc k hk
  refine ⟨?_, ?_⟩
  · rw [cpm_earliest_eq, cpm_latest_eq]
    exact hE
  · rw [mem_criticalPath_iff g k]
    constructor
    · rintro ⟨-, hz⟩
      exact (sub_eq_zero.mp hz).symm
    · intro he
      refine ⟨hk, ?_⟩
      rw [he]
      exact sub_self _

/-- Witness for C5 at Scenario A: all hypotheses hold and the slack facts
follow for every node of the graph. -/
theorem calculateCriticalPath_slack_witness :
    WellFormed exGraphA ∧ Acyclic exGraphA.adjacencyList ∧
      (∀ p ∈ exGraphA.nodes, 1 ≤ p.2.duration) ∧
      ∀ k ∈ mkeys exGraphA.nodes,
        (mfind (calculateCriticalPath exGraphA).earliestTimes k).getD 0 ≤
          (mfind (calculateCriticalPath exGraphA).latestTimes k).getD 0 ∧
        (k ∈ (calculateCriticalPath exGraphA).criticalPathSet ↔
          (mfind (calculateCriticalPath exGraphA).earliestTimes k).getD 0 =
            (mfind (calculateCriticalPath exGraphA).latestTimes k).getD 0) := by
  have hacyc : Acyclic exGraphA.adjacencyList :=
    acyclic_of_rank _ (fun k => k) (by decide)
  exact ⟨by decide, hacyc, by decide,
    calculateCriticalPath_slack exGraphA (by decide) hacyc (by decide)⟩

/-! ### C6: project duration and totalDuration -/

theorem mkeys_map_pair {A : Type} (f : Nat → A) (l : List Nat) :
    mkeys (l.map fun k => (k, f k)) = l := by
  induction l with
  | nil => rfl
  | cons a r ih => rw [List.map_cons, mkeys_cons, ih]

theorem cpmFW_keys (g : DependencyGraph) (hwf : WellFormed g) :
    mkeys (cpmFW g).1 = mkeys g.nodes ∧ mkeys (cpmFW g).2 = topologicalSort g := by
  obtain ⟨hnd2, hsub, _, _⟩ := topologicalSort_master g hwf
  have heT0 : (mkeys g.nodes).foldl (fun m k => mset m k 0) [] =
      (mkeys g.nodes).map fun k => ((k : Nat), (0 : Int)) := by
    rw [foldl_mset_const _ _ [] (by simp [mkeys]) hwf.1]
    rfl
  have hkeys := forwardPass_keys g (topologicalSort g)
    ((mkeys g.nodes).foldl (fun m k => mset m k 0) []) []
    (by intro n hn; rw [heT0, mkeys_map_pair]; exact hsub n hn)
    hnd2
    (by intro n _; simp [mkeys])
  constructor
  · unfold cpmFW
    rw [hkeys.1, heT0, mkeys_map_pair]
  · unfold cpmFW
    rw [hkeys.2]
    rfl

theorem cpmFW1_eq (g : DependencyGraph) (hwf : WellFormed g) :
    (cpmFW g).1 = (mkeys g.nodes).map fun k => (k, cpmE g k) := by
  have hk1 := (cpmFW_keys g hwf).1
  have hnd1 : (mkeys (cpmFW g).1).Nodup := by rw [hk1]; exact hwf.1
  have ha := assoc_eq_map 0 ((cpmFW g).1) hnd1
  rw [hk1] at ha
  exact ha

theorem cpmFW2_eq (g : DependencyGraph) (hwf : WellFormed g) :
    (cpmFW g).2 = (topologicalSort g).map
      fun k => (k, cpmE g k + nodeDuration g k) := by
  obtain ⟨hnd2, _, _, _⟩ := topologicalSort_master g hwf
  have hk2 := (cpmFW_keys g hwf).2
  have hnd2' : (mkeys (cpmFW g).2).Nodup := by rw [hk2]; exact hnd2
  have ha := assoc_eq_map 0 ((cpmFW g).2) hnd2'
  rw [hk2] at ha
  rw [ha]
  apply List.map_congr_left
  intro k hk
  rw [forward_final_values g hwf k hk]
  rfl

/-- C6: for a non-empty well-formed acyclic graph, the project duration is
an upper bound on earliestStart(n) + duration(n) over the nodes, is attained
by some node (so it is exactly the maximum), and getCriticalPathInfo's
totalDuration equals that same project duration. -/
theorem projectDuration_max (g : DependencyGraph) (hwf : WellFormed g)
    (hacyc : Acyclic g.adjacencyList) (hne : g.nodes ≠ []) :
    (∀ k ∈ mkeys g.nodes,
      (mfind (calculateCriticalPath g).earliestTimes k).getD 0 + nodeDuration g k ≤
        cpmPD g) ∧
    (∃ k ∈ mkeys g.nodes,
      (mfind (calculateCriticalPath g).earliestTimes k).getD 0 + nodeDuration g k =
        cpmPD g) ∧
    totalDurationOf g = cpmPD g := by
  obtain ⟨hnd2, hsub, _, _⟩ := topologicalSort_master g hwf
  have hperm := topologicalSort_perm g hwf hacyc
  have hvals : (cpmFW g).2.map (fun p => p.2) =
      (topologicalSort g).map fun k => cpmE g k + nodeDuration g k := by
    rw [cpmFW2_eq g hwf, List.map_map]
    rfl
  have hpd : cpmPD g =
      maxIntList ((topologicalSort g).map fun k => cpmE g k + nodeDuration g k) := by
    unfold cpmPD projectDurationOf
    rw [hvals]
  have hkeysne : mkeys g.nodes ≠ [] := by
    cases hnodes : g.nodes with
    | nil => exact absurd hnodes hne
    | cons p r =>
      obtain ⟨k0, v0⟩ := p
      rw [mkeys_cons]
      exact List.cons_ne_nil _ _
  have hordne : topologicalSort g ≠ [] := by
    intro h0
    rw [h0] at hperm
    exact hkeysne hperm.nil_eq.symm
  refine ⟨?_, ?_, ?_⟩
  · intro k hk
    have hle := forward_le_pd g hwf hacyc k hk
    rw [cpm_earliest_eq]
    exact hle
  · have hne' : ((topologicalSort g).map fun k => cpmE g k + nodeDuration g k) ≠ [] :=
      fun h0 => hordne (List.map_eq_nil_iff.mp h0)
    obtain ⟨hmem, _⟩ := maxIntList_spec hne'
    rw [← hpd] at hmem
    obtain ⟨k, hk, heq⟩ := List.mem_map.1 hmem
    refine ⟨k, hsub k hk, ?_⟩
    rw [cpm_earliest_eq]
    exact heq
  · show maxIntList (List.zipWith (fun p k => p.2 + nodeDuration g k)
      (calculateCriticalPath g).earliestTimes (mkeys g.nodes)) = cpmPD g
    rw [cpm_earliest_eq, cpmFW1_eq g hwf, List.zipWith_map_left, List.zipWith_same]
    rw [hpd]
    exact maxIntList_perm ((hperm.map fun k => cpmE g k + nodeDuration g k).symm)

/-- Witness for C6 at Scenario A. -/
theorem projectDuration_max_witness :
    WellFormed exGraphA ∧ Acyclic exGraphA.adjacencyList ∧ exGraphA.nodes ≠ [] ∧
    ((∀ k ∈ mkeys exGraphA.nodes,
        (mfind (calculateCriticalPath exGraphA).earliestTimes k).getD 0 +
          nodeDuration exGraphA k ≤ cpmPD exGraphA) ∧
     (∃ k ∈ mkeys exGraphA.nodes,
        (mfind (calculateCriticalPath exGraphA).earliestTimes k).getD 0 +
          nodeDuration exGraphA k = cpmPD exGraphA) ∧
     totalDurationOf exGraphA = cpmPD exGraphA) := by
  have hacyc : Acyclic exGraphA.adjacencyList :=
    acyclic_of_rank _ (fun k => k) (by decide)
  exact ⟨by decide, hacyc, by decide,
    projectDuration_max exGraphA (by decide) hacyc (by decide)⟩

/-! ### C9: the schedule is a function of the graph structure alone -/

/-- Two graphs share their scheduling-relevant structure when they list the
same task ids with the same durations (in the same map order) and have the
same adjacency map.  The remaining TaskNode fields (title, dueDate, the
stored earliestStartDate / isOnCriticalPath, the denormalized dependency
arrays) are carried on the records but never read by the scheduler. -/
def SameStructure (g₁ g₂ : DependencyGraph) : Prop :=
  g₁.nodes.map (fun p => (p.1, p.2.duration)) =
    g₂.nodes.map (fun p => (p.1, p.2.duration)) ∧
  g₁.adjacencyList = g₂.adjacencyList

instance (g₁ g₂ : DependencyGraph) : Decidable (SameStructure g₁ g₂) :=
  inferInstanceAs (Decidable (_ ∧ _))

theorem mfind_map_val {A B : Type} (f : A → B) (m : List (Nat × A)) (k : Nat) :
    mfind (m.map fun p => (p.1, f p.2)) k = (mfind m k).map f := by
  induction m with
  | nil => rfl
  | cons a m ih =>
    rw [List.map_cons, mfind_cons, mfind_cons]
    by_cases h : a.1 = k
    · simp [h]
    · simp [h, ih]

theorem mfind_isSome_map {A B : Type} (f : A → B) (m : List (Nat × A)) (k : Nat) :
    (List.find? (fun p => p.1 == k) (m.map fun p => (p.1, f p.2))).isSome =
      (List.find? (fun p => p.1 == k) m).isSome := by
  simp [List.find?_map, Function.comp_def]

theorem mset_map_val {A B : Type} (f : A → B) (m : List (Nat × A)) (k : Nat) (v : A) :
    (mset m k v).map (fun p => (p.1, f p.2)) =
      mset (m.map fun p => (p.1, f p.2)) k (f v) := by
  unfold mset
  rw [mfind_isSome_map]
  by_cases h : (List.find? (fun p => p.1 == k) m).isSome = true
  · rw [if_pos h, if_pos h, List.map_map, List.map_map]
    apply List.map_congr_left
    intro p _
    by_cases hk : p.1 = k
    · simp [Function.comp, hk]
    · simp [Function.comp, hk]
  · rw [if_neg h, if_neg h]
    simp

theorem sameStructure_mkeys {g₁ g₂ : DependencyGraph} (h : SameStructure g₁ g₂) :
    mkeys g₁.nodes = mkeys g₂.nodes := by
  have h2 := congrArg (List.map fun q : Nat × Int => q.1) h.1
  rw [List.map_map, List.map_map] at h2
  exact h2

theorem sameStructure_len {g₁ g₂ : DependencyGraph} (h : SameStructure g₁ g₂) :
    g₁.nodes.length = g₂.nodes.length := by
  have h2 := congrArg List.length h.1
  simpa using h2

theorem sameStructure_dur {g₁ g₂ : DependencyGraph} (h : SameStructure g₁ g₂) :
    ∀ n, nodeDuration g₁ n = nodeDuration g₂ n := by
  intro n
  unfold nodeDuration
  rw [← mfind_map_val TaskNode.duration g₁.nodes n,
      ← mfind_map_val TaskNode.duration g₂.nodes n, h.1]

theorem topologicalSort_congr {g₁ g₂ : DependencyGraph} (h : SameStructure g₁ g₂) :
    topologicalSort g₁ = topologicalSort g₂ := by
  unfold topologicalSort buildInDegree
  rw [sameStructure_mkeys h, sameStructure_len h, h.2]

theorem forwardPass_congr (g₁ g₂ : DependencyGraph)
    (ha : g₁.adjacencyList = g₂.adjacencyList)
    (hd : ∀ n, nodeDuration g₁ n = nodeDuration g₂ n) :
    ∀ (rest : List Nat) (eT eF : List (Nat × Int)),
      forwardPass g₁ rest eT eF = forwardPass g₂ rest eT eF := by
  intro rest
  induction rest with
  | nil => intro eT eF; rfl
  | cons n rest ih =>
    intro eT eF
    simp only [forwardPass]
    rw [ha, hd n]
    exact ih _ _

theorem backwardPass_congr (g₁ g₂ : DependencyGraph)
    (ha : g₁.adjacencyList = g₂.adjacencyList)
    (hd : ∀ n, nodeDuration g₁ n = nodeDuration g₂ n) :
    ∀ (rest : List Nat) (lT lF : List (Nat × Int)),
      backwardPass g₁ rest lT lF = backwardPass g₂ rest lT lF := by
  intro rest
  induction rest with
  | nil => intro lT lF; rfl
  | cons n rest ih =>
    intro lT lF
    simp only [backwardPass]
    rw [ha, hd n]
    exact ih _ _

theorem calculateCriticalPath_congr (g₁ g₂ : DependencyGraph)
    (h : SameStructure g₁ g₂) :
    calculateCriticalPath g₁ = calculateCriticalPath g₂ := by
  simp only [calculateCriticalPath]
  rw [topologicalSort_congr h, sameStructure_mkeys h,
      forwardPass_congr g₁ g₂ h.2 (sameStructure_dur h),
      backwardPass_congr g₁ g₂ h.2 (sameStructure_dur h)]

theorem schedUpdates_congr (g₁ g₂ : DependencyGraph) (h : SameStructure g₁ g₂)
    (refDay : Int) : schedUpdates g₁ refDay = schedUpdates g₂ refDay := by
  unfold schedUpdates
  rw [calculateCriticalPath_congr g₁ g₂ h, sameStructure_mkeys h]

/-- The record buildDependencyGraph stores for one todo. -/
def bdgNode (ds : List (Nat × Nat)) (todo : TodoRecord) : TaskNode :=
  { id := todo.id, title := todo.title, duration := todo.duration
    dueDate := todo.dueDate
    dependencies := (ds.filter fun e => e.1 == todo.id).map (fun e => e.2)
    dependentTasks := (ds.filter fun e => e.2 == todo.id).map (fun e => e.1)
    earliestStartDate := todo.earliestStartDate
    isOnCriticalPath := todo.isOnCriticalPath }

/-- One fold step of buildDependencyGraph. -/
def bdgStep (ds : List (Nat × Nat)) (g : DependencyGraph) (todo : TodoRecord) :
    DependencyGraph :=
  { nodes := mset g.nodes todo.id (bdgNode ds todo)
    adjacencyList := mset g.adjacencyList todo.id
      ((ds.filter fun e => e.1 == todo.id).map (fun e => e.2)) }

theorem buildDependencyGraph_eq_fold (db : DB) :
    buildDependencyGraph db =
      db.todos.foldl (bdgStep db.deps) { nodes := [], adjacencyList := [] } := rfl

theorem bdgNode_duration (ds : List (Nat × Nat)) (t : TodoRecord) :
    (bdgNode ds t).duration = t.duration := rfl

theorem bdgFold_struct (ds : List (Nat × Nat)) (f : TodoRecord → TodoRecord)
    (hid : ∀ t, (f t).id = t.id) (hdur : ∀ t, (f t).duration = t.duration) :
    ∀ (todos : List TodoRecord) (g₁ g₂ : DependencyGraph),
      SameStructure g₂ g₁ →
      SameStructure ((todos.map f).foldl (bdgStep ds) g₂)
        (todos.foldl (bdgStep ds) g₁) := by
  intro todos
  induction todos with
  | nil => intro g₁ g₂ h; exact h
  | cons t ts ih =>
    intro g₁ g₂ h
    rw [List.map_cons, List.foldl_cons, List.foldl_cons]
    apply ih
    refine ⟨?_, ?_⟩
    · show (bdgStep ds g₂ (f t)).nodes.map (fun p => (p.1, p.2.duration)) =
        (bdgStep ds g₁ t).nodes.map (fun p => (p.1, p.2.duration))
      simp only [bdgStep]
      rw [mset_map_val TaskNode.duration, mset_map_val TaskNode.duration,
        bdgNode_duration, bdgNode_duration, hid t, hdur t, h.1]
    · show (bdgStep ds g₂ (f t)).adjacencyList = (bdgStep ds g₁ t).adjacencyList
      simp only [bdgStep]
      rw [hid t, h.2]

theorem applySched_id (u : List (Nat × Int × Bool)) (t : TodoRecord) :
    (applySched u t).id = t.id := by
  unfold applySched
  cases h : mfind (u.map fun x => (x.1, x.2)) t.id with
  | none => rfl
  | some v => obtain ⟨d, c⟩ := v; rfl

theorem applySched_duration (u : List (Nat × Int × Bool)) (t : TodoRecord) :
    (applySched u t).duration = t.duration := by
  unfold applySched
  cases h : mfind (u.map fun x => (x.1, x.2)) t.id with
  | none => rfl
  | some v => obtain ⟨d, c⟩ := v; rfl

theorem applySched_idem (u : List (Nat × Int × Bool)) (t : TodoRecord) :
    applySched u (applySched u t) = applySched u t := by
  conv_lhs => rw [applySched]
  rw [applySched_id]
  cases h : mfind (u.map fun x => (x.1, x.2)) t.id with
  | none => rfl
  | some v =>
    obtain ⟨d, c⟩ := v
    unfold applySched
    rw [h]

theorem updateTaskScheduling_todos (db : DB) (refDay : Int) :
    (updateTaskScheduling db refDay).todos =
      db.todos.map
        (applySched (schedUpdates (buildDependencyGraph db) refDay)) := rfl

theorem updateTaskScheduling_deps_eq (db : DB) (refDay : Int) :
    (updateTaskScheduling db refDay).deps = db.deps := rfl

theorem updateTaskScheduling_struct (db : DB) (refDay : Int) :
    SameStructure (buildDependencyGraph (updateTaskScheduling db refDay))
      (buildDependencyGraph db) := by
  rw [buildDependencyGraph_eq_fold, buildDependencyGraph_eq_fold,
      updateTaskScheduling_todos, updateTaskScheduling_deps_eq]
  exact bdgFold_struct db.deps _ (applySched_id _) (applySched_duration _)
    db.todos _ _ ⟨rfl, rfl⟩

theorem DB_eq_of {d₁ d₂ : DB} (h1 : d₁.todos = d₂.todos)
    (h2 : d₁.deps = d₂.deps) : d₁ = d₂ := by
  cases d₁
  cases d₂
  cases h1
  cases h2
  rfl

/-- C9: the computed schedule depends only on the graph structure (task ids,
durations, dependency edges) and the reference day: graphs agreeing on that
structure get identical calculateCriticalPath results and identical written
values, whatever the stored derived fields say; consequently recomputing the
schedule on an unchanged database is idempotent, reproducing bit-identical
earliestStartDate and isOnCriticalPath values. -/
theorem scheduling_deterministic :
    (∀ g₁ g₂ : DependencyGraph, SameStructure g₁ g₂ →
      calculateCriticalPath g₁ = calculateCriticalPath g₂ ∧
      ∀ refDay : Int, schedUpdates g₁ refDay = schedUpdates g₂ refDay) ∧
    ∀ (db : DB) (refDay : Int),
      updateTaskScheduling (updateTaskScheduling db refDay) refDay =
        updateTaskScheduling db refDay := by
  constructor
  · intro g₁ g₂ h
    exact ⟨calculateCriticalPath_congr g₁ g₂ h,
      fun refDay => schedUpdates_congr g₁ g₂ h refDay⟩
  · intro db refDay
    have hU : schedUpdates (buildDependencyGraph (updateTaskScheduling db refDay))
        refDay = schedUpdates (buildDependencyGraph db) refDay :=
      schedUpdates_congr _ _ (updateTaskScheduling_struct db refDay) refDay
    refine DB_eq_of ?_ rfl
    rw [updateTaskScheduling_todos (updateTaskScheduling db refDay) refDay, hU,
        updateTaskScheduling_todos db refDay, List.map_map]
    apply List.map_congr_left
    intro t _
    exact applySched_idem _ t

/-- Scenario A with stale derived fields written on the node records: same
ids, durations and edges, different title / earliestStartDate /
isOnCriticalPath on task 1. -/
def exGraphA2 : DependencyGraph :=
  { nodes := [(1, { id := 1, title := "task (stale)", duration := 2,
                    earliestStartDate := some 5, isOnCriticalPath := true }),
              (2, exTask 2 3), (3, exTask 3 1)]
    adjacencyList := [(1, []), (2, [1]), (3, [1])] }

/-- Witness for C9: Scenario A versus the same structure carrying stale
derived fields, and idempotence at the Scenario B database. -/
theorem scheduling_deterministic_witness :
    SameStructure exGraphA exGraphA2 ∧
      calculateCriticalPath exGraphA = calculateCriticalPath exGraphA2 ∧
      schedUpdates exGraphA 100 = schedUpdates exGraphA2 100 ∧
      updateTaskScheduling (updateTaskScheduling exDBB 100) 100 =
        updateTaskScheduling exDBB 100 := by
  have hs : SameStructure exGraphA exGraphA2 := by decide
  obtain ⟨h1, h2⟩ := scheduling_deterministic.1 exGraphA exGraphA2 hs
  exact ⟨hs, h1, h2 100, scheduling_deterministic.2 exDBB 100⟩
